import Mathlib

/- Verification development for the concurrent DAG task scheduler in
   src/graph.c (rocher/graph-C).

   The scheduler core is embedded as a small-step transition system over an
   explicit scheduler state.  Each transition corresponds to one atomic
   action of a worker thread at mutex granularity, exactly following the
   body of the C function `runner` (graph.c lines 575-618) together with
   `runner_check_loops` (620-638) and `runner_process_children` (640-655):

   - a queue pop (performed under the queue mutex, lines 586-598);
   - each of the two trace appends (under the trace mutex, lines 602, 604);
   - the task body (line 603; the entry task `task_A` increments the global
     `graph_loop`, line 709; all other reference tasks only sleep and have
     no effect on scheduler state);
   - the reset of the node's satisfied counter (line 607);
   - one `arrive` on one child (under the child's mutex, lines 647-652),
     together with the conditional push of the child (line 650);
   - the loop-boundary logic (lines 621-638), whose queue push is itself
     a single mutex-protected action.

   The fields `execs` and `tracesDone` of the state are history
   instrumentation: they record, respectively, how often each node's task
   body has run and the traces of completed loops.  No transition reads
   them; they only accumulate information used to state the verified
   properties.

   A second, purely syntactic embedding (`QAct` action lists) records the
   sequence of primitive lock/unlock/read/write actions each C function
   performs, and is used for the claims about mutex discipline. -/

namespace GraphC

/-- Control state of one worker thread, following the body of the C
function `runner` (graph.c 575-618): `idle` is the top of the while loop,
`popped n` is the point just after `task_queue_pop_front` returned node
`n` and the queue mutex was released (line 598), `appended1 n` is after
the first `exec_trace_append` (602), `taskDone n` after the task body
(603), `appended2 n` after the second append (604), `processing n cs` is
inside `runner_process_children` with the children `cs` still to be
notified (640-655), `atCheck n` is about to run `runner_check_loops`
(610), and `gone` is a worker that returned (615-617). -/
inductive WState where
  | idle
  | popped (n : Nat)
  | appended1 (n : Nat)
  | taskDone (n : Nat)
  | appended2 (n : Nat)
  | processing (n : Nat) (cs : List Nat)
  | atCheck (n : Nat)
  | gone
  deriving DecidableEq, Repr

/-- The immutable task graph, as built by `gnode_new` / `gnode_child`
(graph.c 277-322): node labels (as naturals), the children and parents
adjacency lists, the `deps.required` counter of each node (incremented
once per added parent, line 303), the entry node (the global `graph`,
labelled A) and the terminal node (labelled Z). -/
structure Graph where
  nodes : List Nat
  children : Nat → List Nat
  parents : Nat → List Nat
  required : Nat → Nat
  entry : Nat
  termNode : Nat

/-- Global scheduler state: the ready queue `tasks_queue` (list of node
labels, FIFO) with its separate integer length `tasks_queue_length`, the
`runners_active` flag, the per-node `deps.satisfied` counters, the loop
counters `graph_loop` and `graph_loops`, the current execution trace
`exec_trace` (as the list of labels appended so far this loop), and the
control state of each of the `P` workers.  `execs` and `tracesDone` are
history instrumentation (see the file comment). -/
structure St (P : Nat) where
  queue : List Nat
  qlen : Int
  active : Bool
  satisfied : Nat → Nat
  gloop : Nat
  gloops : Nat
  trace : List Nat
  tracesDone : List (List Nat)
  execs : Nat → Nat
  workers : Fin P → WState

/-- task_queue_push_back (graph.c 446-458): append the node at the back of
the queue and increment the length (both under the queue mutex), then
broadcast. -/
def task_queue_push_back {P : Nat} (s : St P) (n : Nat) : St P :=
  { s with queue := s.queue ++ [n], qlen := s.qlen + 1 }

/-- task_queue_pop_front (graph.c 431-443): detach the head of the list
and decrement the length.  `none` models the null-pointer dereference the
C code would perform on an empty list (lines 435-436 dereference
`tasks_queue` unconditionally). -/
def task_queue_pop_front {P : Nat} (s : St P) : Option (Nat × St P) :=
  match s.queue with
  | [] => none
  | x :: q => some (x, { s with queue := q, qlen := s.qlen - 1 })

/-- runner_check_loops (graph.c 621-638): if `graph_loop == graph_loops`,
stop the runners by clearing `runners_active` and setting the length
sentinel `tasks_queue_length := -1`; otherwise reset the trace and push
the entry node again.  In both branches the instrumentation field
`tracesDone` archives the trace of the loop that just completed. -/
def runner_check_loops {P : Nat} (G : Graph) (s : St P) : St P :=
  if s.gloop = s.gloops then
    { s with active := false, qlen := -1,
             tracesDone := s.tracesDone ++ [s.trace] }
  else
    task_queue_push_back
      { s with trace := [], tracesDone := s.tracesDone ++ [s.trace] } G.entry

/-- runners_loop (graph.c 680-684): set `graph_loops := loops` and push
the entry node.  Note: it touches neither `graph_loop` nor the trace. -/
def runners_loop {P : Nat} (G : Graph) (loops : Nat) (s : St P) : St P :=
  task_queue_push_back { s with gloops := loops } G.entry

/-- The state after main's initialisation (graph.c 821-828) and before
`runners_loop` is called: empty queue (`tasks_queue_init`, 423-428), all
workers created and idle (`runners_init_pool`, 658-676), empty trace
(`exec_trace_init`, 508-512), all `satisfied` counters zero (allocated
with `calloc`, 279-284), and the zero-initialised globals `graph_loop`
and `graph_loops`. -/
def st0 (P : Nat) : St P :=
  { queue := [], qlen := 0, active := true, satisfied := fun _ => 0,
    gloop := 0, gloops := 0, trace := [], tracesDone := [],
    execs := fun _ => 0, workers := fun _ => .idle }

/-- State at the start of scheduling: main calls `runners_loop loops`
(graph.c 831) on the freshly initialised state. -/
def initSt (G : Graph) (L P : Nat) : St P := runners_loop G L (st0 P)

/-- One atomic action of one worker thread `w`.  Each constructor mirrors
one region of `runner` / `runner_check_loops` / `runner_process_children`;
see the file comment for the correspondence. -/
inductive Step {P : Nat} (G : Graph) : St P → St P → Prop where
  | quit (s : St P) (w : Fin P)
      (h1 : s.workers w = .idle) (h2 : s.active = false) :
      Step G s { s with workers := Function.update s.workers w .gone }
  | pop (s : St P) (w : Fin P) (x : Nat) (s1 : St P)
      (h1 : s.workers w = .idle) (h2 : s.active = true) (h3 : s.qlen ≠ 0)
      (h4 : task_queue_pop_front s = some (x, s1)) :
      Step G s { s1 with workers := Function.update s.workers w (.popped x) }
  | append1 (s : St P) (w : Fin P) (x : Nat)
      (h1 : s.workers w = .popped x) :
      Step G s { s with workers := Function.update s.workers w (.appended1 x),
                        trace := s.trace ++ [x] }
  | taskRun (s : St P) (w : Fin P) (x : Nat)
      (h1 : s.workers w = .appended1 x) :
      Step G s { s with workers := Function.update s.workers w (.taskDone x),
                        gloop := if x = G.entry then s.gloop + 1 else s.gloop,
                        execs := Function.update s.execs x (s.execs x + 1) }
  | append2 (s : St P) (w : Fin P) (x : Nat)
      (h1 : s.workers w = .taskDone x) :
      Step G s { s with workers := Function.update s.workers w (.appended2 x),
                        trace := s.trace ++ [x] }
  | resetGo (s : St P) (w : Fin P) (x : Nat)
      (h1 : s.workers w = .appended2 x) :
      Step G s { s with satisfied := Function.update s.satisfied x 0,
                        workers := Function.update s.workers w
                          (if x = G.termNode then .atCheck x
                           else if G.children x = [] then .idle
                           else .processing x (G.children x)) }
  | arriveWait (s : St P) (w : Fin P) (x c : Nat) (cs : List Nat)
      (h1 : s.workers w = .processing x (c :: cs))
      (h2 : G.required c ≠ s.satisfied c + 1) :
      Step G s { s with
        satisfied := Function.update s.satisfied c (s.satisfied c + 1),
        workers := Function.update s.workers w
          (if cs = [] then .idle else .processing x cs) }
  | arriveFire (s : St P) (w : Fin P) (x c : Nat) (cs : List Nat)
      (h1 : s.workers w = .processing x (c :: cs))
      (h2 : G.required c = s.satisfied c + 1) :
      Step G s { (task_queue_push_back
          { s with satisfied := Function.update s.satisfied c (s.satisfied c + 1) } c)
        with workers :=
               Function.update s.workers w
                 (if cs = [] then .idle else .processing x cs) }
  | check (s : St P) (w : Fin P) (x : Nat)
      (h1 : s.workers w = .atCheck x) :
      Step G s { runner_check_loops G s with
                 workers := Function.update s.workers w .idle }

/-- Reachability in the graph along children edges. -/
def Reaches (G : Graph) : Nat → Nat → Prop :=
  Relation.ReflTransGen (fun a b => b ∈ G.children a)

/-- Well-formedness of the constructed graph, as guaranteed by the
construction code of graph.c: `gnode_child` (297-309) maintains the
children/parents duality and increments the child's `required` counter for
every added parent; the reference graph has distinct labels, no duplicate
edges, entry node A with no parents, terminal node Z with no children, and
every node reaches Z. -/
structure WF (G : Graph) : Prop where
  entryMem : G.entry ∈ G.nodes
  termMem : G.termNode ∈ G.nodes
  entryNeTerm : G.entry ≠ G.termNode
  nodesNodup : G.nodes.Nodup
  childMem : ∀ n ∈ G.nodes, ∀ c ∈ G.children n, c ∈ G.nodes
  parentMem : ∀ n ∈ G.nodes, ∀ p ∈ G.parents n, p ∈ G.nodes
  childNodup : ∀ n ∈ G.nodes, (G.children n).Nodup
  parentNodup : ∀ n ∈ G.nodes, (G.parents n).Nodup
  dual : ∀ p ∈ G.nodes, ∀ c ∈ G.nodes, (c ∈ G.children p ↔ p ∈ G.parents c)
  reqEq : ∀ n ∈ G.nodes, G.required n = (G.parents n).length
  entryNoParents : G.parents G.entry = []
  nonEntryParents : ∀ n ∈ G.nodes, n ≠ G.entry → G.parents n ≠ []
  termNoChildren : G.children G.termNode = []
  reachTerm : ∀ n ∈ G.nodes, Reaches G n G.termNode

/-- States reachable from the start of scheduling with `L` loops and `P`
workers. -/
def Reachable (G : Graph) (L P : Nat) (s : St P) : Prop :=
  Relation.ReflTransGen (Step G) (initSt G L P) s

/-! Syntactic embedding of the primitive actions performed by the queue
and shutdown related C functions, used for the claims about mutex
discipline.  Each definition transliterates the straight-line sequence of
shared-memory and synchronisation operations of one function (or one
control path through it). -/

/-- One primitive action on shared state, at the granularity of graph.c's
statements touching the queue, its mutex, its condition variable, the
shutdown flag and the loop counters. -/
inductive QAct where
  | lockQ
  | unlockQ
  | bcastQ
  | readActive
  | writeActive (b : Bool)
  | readLen
  | incLen
  | decLen
  | writeLenSentinel
  | readHead
  | detachHead
  | freeNode
  | linkNode
  | appendTrace
  | readTrace
  | resetTrace
  | runTask
  | writeSatisfied
  | readLoopCtrs
  deriving DecidableEq, Repr

/-- Actions of `task_queue_pop_front` (graph.c 431-443): read the head
pointer and its graph node (435-436), detach the head (438), decrement
`tasks_queue_length` (439), free the list node (440).  The function
performs no mutex operation at all: its comment (433-434) requires it to
be called with `tasks_queue_mtx` already locked. -/
def popFrontActs : List QAct :=
  [.readHead, .detachHead, .decLen, .freeNode]

/-- Actions of `task_queue_push_back` (graph.c 446-458): lock (448), link
the node (450-453), increment the length (454), unlock (456), broadcast
(457). -/
def pushBackActs : List QAct :=
  [.lockQ, .linkNode, .incLen, .unlockQ, .bcastQ]

/-- Actions of the shutdown branch of `runner_check_loops`
(graph.c 623-631): read the trace for logging (623), compare the loop
counters (624), set `runners_active := false` (628), set the sentinel
`tasks_queue_length := -1` (629), broadcast (630).  No mutex is
acquired anywhere in the function. -/
def checkLoopsStopActs : List QAct :=
  [.readTrace, .readLoopCtrs, .writeActive false, .writeLenSentinel,
   .bcastQ]

/-- Actions of the next-loop branch of `runner_check_loops`
(graph.c 623-624, 633-637): read the trace, compare the counters, reset
the trace (635), push the entry node (636). -/
def checkLoopsNextActs : List QAct :=
  [.readTrace, .readLoopCtrs, .resetTrace] ++ pushBackActs

/-- Actions of one full iteration of `runner` (graph.c 583-610) in which
the popped node is the terminal node and `runner_check_loops` takes the
shutdown branch: outer `while (runners_active)` read (583), lock (586),
read of the length in the wait loop (587), `if (!runners_active)` read
(590), the pop (597), unlock (598), the two trace appends around the task
(602-604), the unguarded write `gnode->deps.satisfied = 0` (607), and the
loop-boundary logic (610, 621-631). -/
def runnerTermActs : List QAct :=
  [.readActive, .lockQ, .readLen, .readActive] ++ popFrontActs ++
    [.unlockQ, .appendTrace, .runTask, .appendTrace, .writeSatisfied] ++
    checkLoopsStopActs

/-- Whether the queue mutex is held after executing a list of actions
(starting from not held). -/
def heldAfter (l : List QAct) : Bool :=
  l.foldl
    (fun h a =>
      match a with
      | .lockQ => true
      | .unlockQ => false
      | _ => h)
    false

/-- Whether the queue mutex is held at the moment action number `i`
(0-based) of `l` executes. -/
def heldAt (l : List QAct) (i : Nat) : Bool := heldAfter (l.take i)

/-- Whether an action is one of the two shutdown-marking writes:
`runners_active := false` or `tasks_queue_length := -1`. -/
def shutdownWrite : QAct → Bool
  | .writeActive _ => true
  | .writeLenSentinel => true
  | _ => false

/-- The mutex discipline asserted by claim C3, over a given action list:
every shutdown-marking write and every read of `runners_active` happens
while the queue mutex is held. -/
def LocksRespected (l : List QAct) : Prop :=
  ∀ i : Fin l.length,
    (shutdownWrite (l.get i) = true → heldAt l i.val = true) ∧
    (l.get i = .readActive → heldAt l i.val = true)

/-! Embedding of the execution-trace buffer functions (graph.c 505-531).
The buffer is a fixed-size array of characters, modelled as a list of
naturals in which 0 plays the role of the terminating NUL. -/

/-- Index of the first 0 in the buffer: the scan loop of
`exec_trace_append` (graph.c 525-526). -/
def firstZero : List Nat → Nat
  | [] => 0
  | x :: xs => if x = 0 then 0 else firstZero xs + 1

/-- exec_trace_append (graph.c 520-531): find the first NUL, write the
label there and a NUL one slot further.  (`List.set` leaves the list
unchanged when the index is out of range; the overflow-freedom theorem
shows that, under the stated preconditions, both indices are in range.) -/
def exec_trace_append (label : Nat) (buf : List Nat) : List Nat :=
  (buf.set (firstZero buf) label).set (firstZero buf + 1) 0

/-- exec_trace_init (graph.c 508-512): the buffer is calloc'ed with
`2 * graph_size + 1` slots, all NUL. -/
def exec_trace_init (graphSize : Nat) : List Nat :=
  List.replicate (2 * graphSize + 1) 0

/-! The inductive invariant of the transition system. -/

/-- The worker control state is currently executing node `n` (anywhere
between a successful pop and the end of the per-node work). -/
def runsN : WState → Nat → Prop
  | .popped m, n => m = n
  | .appended1 m, n => m = n
  | .taskDone m, n => m = n
  | .appended2 m, n => m = n
  | .processing m _, n => m = n
  | .atCheck m, n => m = n
  | _, _ => False

/-- The worker control state has executed node `p`'s task body this loop
but has not yet notified child `c`. -/
def blockB : WState → Nat → Nat → Bool
  | .taskDone m, p, _ => m == p
  | .appended2 m, p, _ => m == p
  | .processing m cs, p, c => m == p && cs.contains c
  | _, _, _ => false

/-- Parent `p` has arrived at child `c` during the current loop (loop
number `k`): `p`'s task body has run `k` times and no worker is still on
the way from `p`'s task body to the `arrive` on `c`. -/
def arrB {P : Nat} (s : St P) (k p c : Nat) : Bool :=
  (s.execs p == k) &&
    decide (∀ w : Fin P, blockB (s.workers w) p c = false)

/-- Number of parents of `c` that have arrived at `c` during loop `k`. -/
def Acnt {P : Nat} (G : Graph) (s : St P) (k c : Nat) : Nat :=
  ((G.parents c).filter (fun p => arrB s k p c)).length

/-- Number of the loop currently in progress (1-based): the number of
completed, archived loops plus one. -/
def kOf {P : Nat} (s : St P) : Nat := s.tracesDone.length + 1

/-- Node `n` has not yet been enqueued during the current loop: it is not
in the queue, no worker is executing it, and its task body has so far run
once per completed loop only. -/
def Pend {P : Nat} (s : St P) (n : Nat) : Prop :=
  n ∉ s.queue ∧ (∀ w, ¬ runsN (s.workers w) n) ∧ s.execs n + 1 = kOf s

/-- The dependency-order property of a trace: for every edge `p → c`, the
prefix strictly before the first occurrence of `c` already contains at
least two occurrences of `p` (that is, the second occurrence of `p`
precedes the first occurrence of `c`). -/
def OrdOK (G : Graph) (t : List Nat) : Prop :=
  ∀ c ∈ G.nodes, ∀ p ∈ G.parents c, c ∈ t →
    ∃ t1 t2, t = t1 ++ c :: t2 ∧ c ∉ t1 ∧ 2 ≤ t1.count p

/-- A completed loop's trace: all labels are nodes, every node occurs
exactly twice, and the dependency order holds. -/
def TraceFull (G : Graph) (t : List Nat) : Prop :=
  (∀ x ∈ t, x ∈ G.nodes) ∧ (∀ n ∈ G.nodes, t.count n = 2) ∧ OrdOK G t

/-- Invariant of the system while the pool is running (`runners_active`
still true).  All statements are relative to the current loop number
`kOf s`. -/
structure RunInv (G : Graph) (L : Nat) {P : Nat} (s : St P) : Prop where
  act : s.active = true
  loopsEq : s.gloops = L
  kLe : kOf s ≤ L
  qlenEq : s.qlen = (s.queue.length : Int)
  gloopEq : s.gloop = s.execs G.entry
  qNodup : s.queue.Nodup
  qMem : ∀ n ∈ s.queue, n ∈ G.nodes
  trMem : ∀ x ∈ s.trace, x ∈ G.nodes
  noGone : ∀ w, s.workers w ≠ .gone
  runMem : ∀ w n, runsN (s.workers w) n → n ∈ G.nodes
  checkZ : ∀ w n, s.workers w = .atCheck n → n = G.termNode
  procWf : ∀ w n cs, s.workers w = .processing n cs →
    cs ≠ [] ∧ n ≠ G.termNode ∧ ∃ pre, G.children n = pre ++ cs
  uniq : ∀ w1 w2 n, runsN (s.workers w1) n → runsN (s.workers w2) n →
    w1 = w2
  qNoRun : ∀ n ∈ s.queue, ∀ w, ¬ runsN (s.workers w) n
  execsRange : ∀ n ∈ G.nodes, s.execs n + 1 = kOf s ∨ s.execs n = kOf s
  stagePre : ∀ w n, (s.workers w = .popped n ∨ s.workers w = .appended1 n) →
    s.execs n + 1 = kOf s ∧ Acnt G s (kOf s) n = G.required n ∧
      s.satisfied n = G.required n
  stagePost : ∀ w n, (s.workers w = .taskDone n ∨ s.workers w = .appended2 n ∨
      (∃ cs, s.workers w = .processing n cs) ∨ s.workers w = .atCheck n) →
    s.execs n = kOf s
  stageMid : ∀ w n, (s.workers w = .taskDone n ∨ s.workers w = .appended2 n) →
    s.satisfied n = G.required n
  stageLate : ∀ w n, ((∃ cs, s.workers w = .processing n cs) ∨
      s.workers w = .atCheck n) → s.satisfied n = 0
  qProps : ∀ n ∈ s.queue, s.execs n + 1 = kOf s ∧
    s.satisfied n = G.required n ∧ Acnt G s (kOf s) n = G.required n
  pendProps : ∀ n ∈ G.nodes, Pend s n →
    s.satisfied n = Acnt G s (kOf s) n ∧ Acnt G s (kOf s) n < G.required n
  finSat : ∀ n ∈ G.nodes, s.execs n = kOf s →
    (∀ w, ¬ runsN (s.workers w) n) → s.satisfied n = 0
  execsA : ∀ n ∈ G.nodes, s.execs n = kOf s → Acnt G s (kOf s) n = G.required n
  cnt0q : ∀ n ∈ s.queue, s.trace.count n = 0
  cnt0p : ∀ n ∈ G.nodes, Pend s n → s.trace.count n = 0
  cntPop : ∀ w n, s.workers w = .popped n → s.trace.count n = 0
  cnt1 : ∀ w n, (s.workers w = .appended1 n ∨ s.workers w = .taskDone n) →
    s.trace.count n = 1
  cnt2w : ∀ w n, (s.workers w = .appended2 n ∨
      (∃ cs, s.workers w = .processing n cs) ∨ s.workers w = .atCheck n) →
    s.trace.count n = 2
  cnt2f : ∀ n ∈ G.nodes, s.execs n = kOf s →
    (∀ w, ¬ runsN (s.workers w) n) → s.trace.count n = 2
  ordOK : OrdOK G s.trace
  tdOK : ∀ t ∈ s.tracesDone, TraceFull G t

/-- Invariant of the system after shutdown has been requested
(`runners_active` cleared by the final `runner_check_loops`). -/
structure DrainInv (G : Graph) (L : Nat) {P : Nat} (s : St P) : Prop where
  act : s.active = false
  loopsEq : s.gloops = L
  qlenEq : s.qlen = -1
  qEmpty : s.queue = []
  gloopEq : s.gloop = L
  wIdle : ∀ w, s.workers w = .idle ∨ s.workers w = .gone
  execsEq : ∀ n ∈ G.nodes, s.execs n = L
  satEq : ∀ n ∈ G.nodes, s.satisfied n = 0
  tdLen : s.tracesDone.length = L
  tdOK : ∀ t ∈ s.tracesDone, TraceFull G t
  trMem : ∀ x ∈ s.trace, x ∈ G.nodes
  trLen : s.trace.length ≤ 2 * G.nodes.length
  ordOK : OrdOK G s.trace

/-- The global inductive invariant. -/
def Inv (G : Graph) (L : Nat) {P : Nat} (s : St P) : Prop :=
  (s.active = true → RunInv G L s) ∧ (s.active = false → DrainInv G L s)

/-! Helper lemmas. -/

theorem runsN_cases {ws : WState} {n : Nat} (h : runsN ws n) :
    ws = .popped n ∨ ws = .appended1 n ∨ ws = .taskDone n ∨
      ws = .appended2 n ∨ (∃ cs, ws = .processing n cs) ∨ ws = .atCheck n := by
  cases ws <;> simp [runsN] at h <;> simp [h]

theorem runsN_of_eq {ws : WState} {n : Nat}
    (h : ws = .popped n ∨ ws = .appended1 n ∨ ws = .taskDone n ∨
      ws = .appended2 n ∨ (∃ cs, ws = .processing n cs) ∨ ws = .atCheck n) :
    runsN ws n := by
  rcases h with h | h | h | h | ⟨cs, h⟩ | h <;> subst h <;> simp [runsN]

theorem arrB_congr {P : Nat} {s s' : St P} {k p c : Nat}
    (he : s'.execs p = s.execs p)
    (hb : ∀ w, blockB (s'.workers w) p c = blockB (s.workers w) p c) :
    arrB s' k p c = arrB s k p c := by
  simp only [arrB, he]
  congr 1
  simp only [decide_eq_decide]
  constructor
  · intro h w; rw [← hb w]; exact h w
  · intro h w; rw [hb w]; exact h w

theorem Acnt_congr {P : Nat} {G : Graph} {s s' : St P} {k c : Nat}
    (h : ∀ p ∈ G.parents c, arrB s' k p c = arrB s k p c) :
    Acnt G s' k c = Acnt G s k c := by
  unfold Acnt
  rw [List.filter_congr]
  intro p hp
  exact h p hp

theorem Acnt_le {P : Nat} (G : Graph) (s : St P) (k c : Nat) :
    Acnt G s k c ≤ (G.parents c).length :=
  List.length_filter_le _ _

theorem arrB_all_of_Acnt_eq {P : Nat} {G : Graph} {s : St P} {k c : Nat}
    (h : Acnt G s k c = (G.parents c).length) :
    ∀ p ∈ G.parents c, arrB s k p c = true := by
  intro p hp
  have hsub : List.Sublist ((G.parents c).filter (fun p => arrB s k p c))
      (G.parents c) := List.filter_sublist _
  have heq := hsub.eq_of_length h
  have hpf : p ∈ (G.parents c).filter (fun p => arrB s k p c) := by
    rw [heq]; exact hp
  simpa using (List.mem_filter.mp hpf).2

theorem Acnt_lt_of_not_arr {P : Nat} {G : Graph} {s : St P} {k p c : Nat}
    (hp : p ∈ G.parents c) (ha : arrB s k p c = false) :
    Acnt G s k c < (G.parents c).length := by
  rcases Nat.lt_or_ge (Acnt G s k c) (G.parents c).length with h | h
  · exact h
  · exact absurd (arrB_all_of_Acnt_eq (Nat.le_antisymm (Acnt_le G s k c) h) p hp)
      (by simp [ha])

theorem filter_length_succ :
    ∀ {l : List Nat} {x : Nat} {q q' : Nat → Bool}, l.Nodup → x ∈ l →
      q x = true → q' x = false → (∀ y ∈ l, y ≠ x → q y = q' y) →
      (l.filter q).length = (l.filter q').length + 1 := by
  intro l
  induction l with
  | nil => intro x q q' _ hx; cases hx
  | cons a l ih =>
    intro x q q' hn hx hq hq' hother
    rcases List.mem_cons.mp hx with hxa | hxl
    · have hqa : q a = true := hxa ▸ hq
      have hq'a : q' a = false := hxa ▸ hq'
      have hal : a ∉ l := (List.nodup_cons.mp hn).1
      have hsame : l.filter q = l.filter q' := by
        apply List.filter_congr
        intro y hy
        refine hother y (List.mem_cons_of_mem a hy) (fun h => hal ?_)
        exact (h.trans hxa) ▸ hy
      simp [List.filter_cons, hqa, hq'a, hsame]
    · have hax : a ≠ x := fun h => (List.nodup_cons.mp hn).1 (h ▸ hxl)
      have ha : q a = q' a := hother a (List.mem_cons_self a l) hax
      have hrec := ih (List.nodup_cons.mp hn).2 hxl hq hq'
        (fun y hy hyx => hother y (List.mem_cons_of_mem a hy) hyx)
      cases hqa : q a <;> simp [List.filter_cons, ← ha, hqa, hrec]

theorem ordOK_snoc {G : Graph} {t : List Nat} {x : Nat} (h : OrdOK G t)
    (hx : x ∉ t → x ∈ G.nodes → ∀ p ∈ G.parents x, 2 ≤ t.count p) :
    OrdOK G (t ++ [x]) := by
  intro c hc p hp hmem
  by_cases hct : c ∈ t
  · obtain ⟨t1, t2, ht, hnot, hcnt⟩ := h c hc p hp hct
    exact ⟨t1, t2 ++ [x], by simp [ht], hnot, hcnt⟩
  · have hcx : c = x := by
      rcases List.mem_append.mp hmem with h1 | h1
      · exact absurd h1 hct
      · simpa using h1
    exact ⟨t, [], by simp [hcx], hct, hx (hcx ▸ hct) (hcx ▸ hc) p (hcx ▸ hp)⟩

theorem trace_length_le {t nodes : List Nat}
    (hmem : ∀ x ∈ t, x ∈ nodes) (hb : ∀ n ∈ nodes, t.count n ≤ 2) :
    t.length ≤ 2 * nodes.length := by
  have h1 : t.length = Finset.sum t.toFinset (fun a => t.count a) := by
    simp
  have hsub : t.toFinset ⊆ nodes.toFinset := by
    intro a ha
    exact List.mem_toFinset.mpr (hmem a (List.mem_toFinset.mp ha))
  have h2 : Finset.sum t.toFinset (fun a => t.count a) ≤
      Finset.sum nodes.toFinset (fun a => t.count a) :=
    Finset.sum_le_sum_of_subset hsub
  have h3 : Finset.sum nodes.toFinset (fun a => t.count a) ≤
      Finset.sum nodes.toFinset (fun _ => (2 : Nat)) :=
    Finset.sum_le_sum (fun i hi => hb i (List.mem_toFinset.mp hi))
  have h4 : Finset.sum nodes.toFinset (fun _ => (2 : Nat)) =
      2 * nodes.toFinset.card := by
    rw [Finset.sum_const, smul_eq_mul, Nat.mul_comm]
  have h5 : nodes.toFinset.card ≤ nodes.length := nodes.toFinset_card_le
  omega

theorem runsN_update_elim {P : Nat} {f : Fin P → WState} {w : Fin P}
    {st : WState} {w' : Fin P} {n : Nat}
    (h : runsN (Function.update f w st w') n) :
    (w' = w ∧ runsN st n) ∨ (w' ≠ w ∧ runsN (f w') n) := by
  by_cases hw : w' = w
  · subst hw
    rw [Function.update_same] at h
    exact Or.inl ⟨rfl, h⟩
  · rw [Function.update_noteq hw] at h
    exact Or.inr ⟨hw, h⟩

theorem eq_update_elim {P : Nat} {f : Fin P → WState} {w : Fin P}
    {st st' : WState} {w' : Fin P}
    (h : Function.update f w st w' = st') :
    (w' = w ∧ st = st') ∨ (w' ≠ w ∧ f w' = st') := by
  by_cases hw : w' = w
  · subst hw
    rw [Function.update_same] at h
    exact Or.inl ⟨rfl, h⟩
  · rw [Function.update_noteq hw] at h
    exact Or.inr ⟨hw, h⟩

theorem arrB_update_congr {P : Nat} {s s' : St P} {w : Fin P} {st' : WState}
    (hw : s'.workers = Function.update s.workers w st')
    (he : s'.execs = s.execs) {k p c : Nat}
    (hb : blockB st' p c = blockB (s.workers w) p c) :
    arrB s' k p c = arrB s k p c := by
  apply arrB_congr (by rw [he])
  intro w'
  rw [hw]
  by_cases hww : w' = w
  · subst hww; rw [Function.update_same, hb]
  · rw [Function.update_noteq hww]

/-- One-step invariant preservation, case quit (worker observes
`runners_active == false` and returns, graph.c 583 or 590-594). -/
theorem inv_quit {G : Graph} {L P : Nat} {s : St P} (I : Inv G L s)
    (w : Fin P) (h1 : s.workers w = .idle) (h2 : s.active = false) :
    Inv G L { s with workers := Function.update s.workers w .gone } := by
  have D := I.2 h2
  constructor
  · intro hact
    rw [show ({ s with workers := Function.update s.workers w .gone} : St P).active
      = s.active from rfl, h2] at hact
    cases hact
  · intro _
    exact { act := h2, loopsEq := D.loopsEq, qlenEq := D.qlenEq,
            qEmpty := D.qEmpty, gloopEq := D.gloopEq,
            wIdle := by
              intro w'
              by_cases hww : w' = w
              · subst hww; simp [Function.update_same]
              · have hold := D.wIdle w'
                simpa [Function.update_noteq hww] using hold,
            execsEq := D.execsEq, satEq := D.satEq, tdLen := D.tdLen,
            tdOK := D.tdOK, trMem := D.trMem, trLen := D.trLen,
            ordOK := D.ordOK }

theorem update_elim_ne {P : Nat} {f : Fin P → WState} {w w' : Fin P}
    {st st' : WState} (h : Function.update f w st w' = st') (hne : st ≠ st') :
    f w' = st' := by
  rcases eq_update_elim h with ⟨_, he⟩ | ⟨_, he⟩
  · exact absurd he hne
  · exact he

/-- One-step invariant preservation, case pop (graph.c 586-598: the
worker takes the head of the queue under the queue mutex). -/
theorem inv_pop {G : Graph} {L P : Nat} {s s' : St P} (I : Inv G L s)
    (w : Fin P) (x : Nat) (q : List Nat)
    (h1 : s.workers w = .idle) (h2 : s.active = true) (hq : s.queue = x :: q)
    (e1 : s'.queue = q) (e2 : s'.qlen = s.qlen - 1) (e3 : s'.active = s.active)
    (e4 : s'.satisfied = s.satisfied) (e5 : s'.gloop = s.gloop)
    (e6 : s'.gloops = s.gloops) (e7 : s'.trace = s.trace)
    (e8 : s'.tracesDone = s.tracesDone) (e9 : s'.execs = s.execs)
    (e10 : s'.workers = Function.update s.workers w (.popped x)) :
    Inv G L s' := by
  have R := I.1 h2
  have hxq : x ∈ s.queue := hq ▸ List.mem_cons_self x q
  have hxnq : x ∉ q := by
    have hnd := hq ▸ R.qNodup
    exact (List.nodup_cons.mp hnd).1
  have hk : kOf s' = kOf s := by unfold kOf; rw [e8]
  have hA : ∀ c, Acnt G s' (kOf s') c = Acnt G s (kOf s) c := by
    intro c
    rw [hk]
    exact Acnt_congr (fun p _ => arrB_update_congr e10 e9 (by rw [h1]; rfl))
  have hnorun : ∀ n, (∀ w', ¬ runsN (s'.workers w') n) →
      ∀ w', ¬ runsN (s.workers w') n := by
    intro n h w' hr
    by_cases hww : w' = w
    · subst hww
      rw [h1] at hr
      exact hr
    · exact h w' (by rw [e10, Function.update_noteq hww]; exact hr)
  have hPend : ∀ n, Pend s' n → Pend s n := by
    intro n hp
    obtain ⟨hnq, hnr, hex⟩ := hp
    rw [e1] at hnq
    rw [e9, hk] at hex
    have hnx : n ≠ x := by
      intro he
      subst he
      exact hnr w (by rw [e10, Function.update_same]; simp [runsN])
    have hnotq : n ∉ s.queue := by
      rw [hq]
      intro hmem
      rcases List.mem_cons.mp hmem with he | he
      · exact hnx he
      · exact hnq he
    exact ⟨hnotq, hnorun n hnr, hex⟩
  constructor
  · intro _
    refine ⟨by rw [e3]; exact h2, ?_, ?_, ?_, ?_, ?_, ?_, ?_, ?_, ?_,
             ?_, ?_, ?_, ?_, ?_, ?_, ?_, ?_, ?_, ?_, ?_, ?_, ?_, ?_, ?_, ?_,
             ?_, ?_, ?_, ?_, ?_⟩
    · rw [e6]; exact R.loopsEq
    · rw [hk]; exact R.kLe
    · rw [e2, e1]
      have hl := R.qlenEq
      rw [hq] at hl
      rw [hl]
      simp [List.length_cons]
    · rw [e5, e9]; exact R.gloopEq
    · rw [e1]; exact (hq ▸ R.qNodup).of_cons
    · rw [e1]
      intro n hn
      exact R.qMem n (by rw [hq]; exact List.mem_cons_of_mem x hn)
    · rw [e7]; exact R.trMem
    · intro w'
      rw [e10]
      by_cases hww : w' = w
      · subst hww; rw [Function.update_same]; simp
      · rw [Function.update_noteq hww]; exact R.noGone w'
    · intro w' n h
      rw [e10] at h
      rcases runsN_update_elim h with ⟨_, hr⟩ | ⟨_, hr⟩
      · have hxn : x = n := by simpa [runsN] using hr
        exact hxn ▸ R.qMem x hxq
      · exact R.runMem w' n hr
    · intro w' n h
      rw [e10] at h
      exact R.checkZ w' n (update_elim_ne h (by simp))
    · intro w' n cs h
      rw [e10] at h
      exact R.procWf w' n cs (update_elim_ne h (by simp))
    · intro w1 w2 n hr1 hr2
      rw [e10] at hr1 hr2
      rcases runsN_update_elim hr1 with ⟨hw1, hr1'⟩ | ⟨hw1, hr1'⟩ <;>
        rcases runsN_update_elim hr2 with ⟨hw2, hr2'⟩ | ⟨hw2, hr2'⟩
      · rw [hw1, hw2]
      · have hxn : x = n := by simpa [runsN] using hr1'
        exact absurd hr2' (hxn ▸ R.qNoRun x hxq w2)
      · have hxn : x = n := by simpa [runsN] using hr2'
        exact absurd hr1' (hxn ▸ R.qNoRun x hxq w1)
      · exact R.uniq w1 w2 n hr1' hr2'
    · intro n hn w' hr
      rw [e1] at hn
      rw [e10] at hr
      rcases runsN_update_elim hr with ⟨_, hr'⟩ | ⟨hww, hr'⟩
      · have hxn : x = n := by simpa [runsN] using hr'
        exact hxnq (hxn ▸ hn)
      · exact R.qNoRun n (by rw [hq]; exact List.mem_cons_of_mem x hn) w' hr'
    · intro n hn
      rw [e9, hk]
      exact R.execsRange n hn
    · intro w' n h
      rw [e9, e4, hA n, hk]
      rcases h with h | h <;> rw [e10] at h
      · rcases eq_update_elim h with ⟨hww, heq⟩ | ⟨hww, heq⟩
        · have hxn := WState.popped.inj heq
          subst hxn
          obtain ⟨he, hsat, hAq⟩ := R.qProps x hxq
          exact ⟨he, hAq, hsat⟩
        · exact R.stagePre w' n (Or.inl heq)
      · exact R.stagePre w' n (Or.inr (update_elim_ne h (by simp)))
    · intro w' n h
      rw [e9, hk]
      rcases h with h | h | ⟨cs, h⟩ | h <;> rw [e10] at h
      · exact R.stagePost w' n (Or.inl (update_elim_ne h (by simp)))
      · exact R.stagePost w' n (Or.inr (Or.inl (update_elim_ne h (by simp))))
      · exact R.stagePost w' n
          (Or.inr (Or.inr (Or.inl ⟨cs, update_elim_ne h (by simp)⟩)))
      · exact R.stagePost w' n
          (Or.inr (Or.inr (Or.inr (update_elim_ne h (by simp)))))
    · intro w' n h
      rw [e4]
      rcases h with h | h <;> rw [e10] at h
      · exact R.stageMid w' n (Or.inl (update_elim_ne h (by simp)))
      · exact R.stageMid w' n (Or.inr (update_elim_ne h (by simp)))
    · intro w' n h
      rw [e4]
      rcases h with ⟨cs, h⟩ | h <;> rw [e10] at h
      · exact R.stageLate w' n (Or.inl ⟨cs, update_elim_ne h (by simp)⟩)
      · exact R.stageLate w' n (Or.inr (update_elim_ne h (by simp)))
    · intro n hn
      rw [e1] at hn
      rw [e9, e4, hA n, hk]
      exact R.qProps n (by rw [hq]; exact List.mem_cons_of_mem x hn)
    · intro n hn hp
      rw [e4, hA n]
      exact R.pendProps n hn (hPend n hp)
    · intro n hn hex hnr
      rw [e4]
      rw [e9, hk] at hex
      exact R.finSat n hn hex (hnorun n hnr)
    · intro n hn hex
      rw [hA n]
      rw [e9, hk] at hex
      exact R.execsA n hn hex
    · intro n hn
      rw [e1] at hn
      rw [e7]
      exact R.cnt0q n (by rw [hq]; exact List.mem_cons_of_mem x hn)
    · intro n hn hp
      rw [e7]
      exact R.cnt0p n hn (hPend n hp)
    · intro w' n h
      rw [e7]
      rw [e10] at h
      rcases eq_update_elim h with ⟨hww, heq⟩ | ⟨hww, heq⟩
      · have hxn := WState.popped.inj heq
        subst hxn
        exact R.cnt0q x hxq
      · exact R.cntPop w' n heq
    · intro w' n h
      rw [e7]
      rcases h with h | h <;> rw [e10] at h
      · exact R.cnt1 w' n (Or.inl (update_elim_ne h (by simp)))
      · exact R.cnt1 w' n (Or.inr (update_elim_ne h (by simp)))
    · intro w' n h
      rw [e7]
      rcases h with h | ⟨cs, h⟩ | h <;> rw [e10] at h
      · exact R.cnt2w w' n (Or.inl (update_elim_ne h (by simp)))
      · exact R.cnt2w w' n (Or.inr (Or.inl ⟨cs, update_elim_ne h (by simp)⟩))
      · exact R.cnt2w w' n (Or.inr (Or.inr (update_elim_ne h (by simp))))
    · intro n hn hex hnr
      rw [e7]
      rw [e9, hk] at hex
      exact R.cnt2f n hn hex (hnorun n hnr)
    · rw [e7]; exact R.ordOK
    · rw [e8]; exact R.tdOK
  · intro habs
    rw [e3, h2] at habs
    cases habs

theorem count_snoc (t : List Nat) (x n : Nat) :
    (t ++ [x]).count n = t.count n + (if n = x then 1 else 0) := by
  rw [List.count_append]
  by_cases h : n = x
  · subst h; simp
  · simp [List.count_cons, h, Ne.symm h]

theorem arrB_elim {P : Nat} {s : St P} {k p c : Nat}
    (h : arrB s k p c = true) :
    s.execs p = k ∧ ∀ w, blockB (s.workers w) p c = false := by
  simpa [arrB] using h

/-- If `p` has arrived at some child during the current loop, then both of
`p`'s trace appends are already in the trace. -/
theorem count2_of_arrB {G : Graph} {L P : Nat} {s : St P} (R : RunInv G L s)
    {p c : Nat} (hp : p ∈ G.nodes) (h : arrB s (kOf s) p c = true) :
    s.trace.count p = 2 := by
  obtain ⟨hex, hnb⟩ := arrB_elim h
  by_cases hr : ∃ w', runsN (s.workers w') p
  · obtain ⟨w', hw'⟩ := hr
    rcases runsN_cases hw' with h' | h' | h' | h' | ⟨cs, h'⟩ | h'
    · obtain ⟨he, _, _⟩ := R.stagePre w' p (Or.inl h'); omega
    · obtain ⟨he, _, _⟩ := R.stagePre w' p (Or.inr h'); omega
    · have hb := hnb w'; rw [h'] at hb; simp [blockB] at hb
    · have hb := hnb w'; rw [h'] at hb; simp [blockB] at hb
    · exact R.cnt2w w' p (Or.inr (Or.inl ⟨cs, h'⟩))
    · exact R.cnt2w w' p (Or.inr (Or.inr h'))
  · push_neg at hr
    exact R.cnt2f p hp hex hr

/-- One-step invariant preservation, case first trace append
(graph.c 602). -/
theorem inv_append1 {G : Graph} {L P : Nat} {s s' : St P} (hwf : WF G)
    (I : Inv G L s) (w : Fin P) (x : Nat)
    (h1 : s.workers w = .popped x)
    (e1 : s'.queue = s.queue) (e2 : s'.qlen = s.qlen)
    (e3 : s'.active = s.active) (e4 : s'.satisfied = s.satisfied)
    (e5 : s'.gloop = s.gloop) (e6 : s'.gloops = s.gloops)
    (e7 : s'.trace = s.trace ++ [x]) (e8 : s'.tracesDone = s.tracesDone)
    (e9 : s'.execs = s.execs)
    (e10 : s'.workers = Function.update s.workers w (.appended1 x)) :
    Inv G L s' := by
  cases hact : s.active with
  | false =>
    have D := I.2 hact
    rcases D.wIdle w with h | h <;> rw [h1] at h <;> cases h
  | true =>
    have R := I.1 hact
    have hxnodes : x ∈ G.nodes := R.runMem w x (by rw [h1]; simp [runsN])
    obtain ⟨hex, hAx, hsatx⟩ := R.stagePre w x (Or.inl h1)
    have hk : kOf s' = kOf s := by unfold kOf; rw [e8]
    have hA : ∀ c, Acnt G s' (kOf s') c = Acnt G s (kOf s) c := by
      intro c
      rw [hk]
      exact Acnt_congr (fun p _ => arrB_update_congr e10 e9 (by rw [h1]; rfl))
    have hnorun : ∀ n, (∀ w', ¬ runsN (s'.workers w') n) →
        ∀ w', ¬ runsN (s.workers w') n := by
      intro n h w' hr
      by_cases hww : w' = w
      · subst hww
        rw [h1] at hr
        have hxn : x = n := by simpa [runsN] using hr
        exact h w' (by rw [e10, Function.update_same]; simpa [runsN] using hxn)
      · exact h w' (by rw [e10, Function.update_noteq hww]; exact hr)
    have hPend : ∀ n, Pend s' n → Pend s n := by
      intro n hp
      obtain ⟨hnq, hnr, hex'⟩ := hp
      rw [e1] at hnq
      rw [e9, hk] at hex'
      exact ⟨hnq, hnorun n hnr, hex'⟩
    have hnx : ∀ w', w' ≠ w → ∀ n, runsN (s.workers w') n → n ≠ x := by
      intro w' hww n hr hxeq
      subst hxeq
      exact hww (R.uniq w' w n hr (by rw [h1]; simp [runsN]))
    have hcnt0 : s.trace.count x = 0 := R.cntPop w x h1
    have h2tr : ∀ p ∈ G.parents x, 2 ≤ s.trace.count p := by
      intro p hp
      have hpn : p ∈ G.nodes := hwf.parentMem x hxnodes p hp
      have harr := arrB_all_of_Acnt_eq
        (hAx.trans (hwf.reqEq x hxnodes)) p hp
      exact le_of_eq (count2_of_arrB R hpn harr).symm
    have hcnt : ∀ n, s'.trace.count n =
        s.trace.count n + (if n = x then 1 else 0) := by
      intro n
      rw [e7]
      exact count_snoc s.trace x n
    constructor
    · intro _
      refine ⟨by rw [e3]; exact hact, ?_, ?_, ?_, ?_, ?_, ?_, ?_, ?_, ?_,
               ?_, ?_, ?_, ?_, ?_, ?_, ?_, ?_, ?_, ?_, ?_, ?_, ?_, ?_, ?_, ?_,
               ?_, ?_, ?_, ?_, ?_⟩
      · rw [e6]; exact R.loopsEq
      · rw [hk]; exact R.kLe
      · rw [e2, e1]; exact R.qlenEq
      · rw [e5, e9]; exact R.gloopEq
      · rw [e1]; exact R.qNodup
      · rw [e1]; exact R.qMem
      · rw [e7]
        intro y hy
        rcases List.mem_append.mp hy with hy | hy
        · exact R.trMem y hy
        · have : y = x := by simpa using hy
          exact this ▸ hxnodes
      · intro w'
        rw [e10]
        by_cases hww : w' = w
        · subst hww; rw [Function.update_same]; simp
        · rw [Function.update_noteq hww]; exact R.noGone w'
      · intro w' n h
        rw [e10] at h
        rcases runsN_update_elim h with ⟨_, hr⟩ | ⟨_, hr⟩
        · have hxn : x = n := by simpa [runsN] using hr
          exact hxn ▸ hxnodes
        · exact R.runMem w' n hr
      · intro w' n h
        rw [e10] at h
        exact R.checkZ w' n (update_elim_ne h (by simp))
      · intro w' n cs h
        rw [e10] at h
        exact R.procWf w' n cs (update_elim_ne h (by simp))
      · intro w1 w2 n hr1 hr2
        rw [e10] at hr1 hr2
        rcases runsN_update_elim hr1 with ⟨hw1, hr1'⟩ | ⟨hw1, hr1'⟩ <;>
          rcases runsN_update_elim hr2 with ⟨hw2, hr2'⟩ | ⟨hw2, hr2'⟩
        · rw [hw1, hw2]
        · have hxn : x = n := by simpa [runsN] using hr1'
          exact absurd (hxn ▸ rfl : n = x) (hnx w2 hw2 n hr2')
        · have hxn : x = n := by simpa [runsN] using hr2'
          exact absurd (hxn ▸ rfl : n = x) (hnx w1 hw1 n hr1')
        · exact R.uniq w1 w2 n hr1' hr2'
      · intro n hn w' hr
        rw [e1] at hn
        rw [e10] at hr
        rcases runsN_update_elim hr with ⟨_, hr'⟩ | ⟨hww, hr'⟩
        · have hxn : x = n := by simpa [runsN] using hr'
          exact R.qNoRun n hn w (by rw [h1, ← hxn]; simp [runsN])
        · exact R.qNoRun n hn w' hr'
      · intro n hn
        rw [e9, hk]
        exact R.execsRange n hn
      · intro w' n h
        rw [e9, e4, hA n, hk]
        rcases h with h | h <;> rw [e10] at h
        · exact R.stagePre w' n (Or.inl (update_elim_ne h (by simp)))
        · rcases eq_update_elim h with ⟨hww, heq⟩ | ⟨hww, heq⟩
          · have hxn := WState.appended1.inj heq
            subst hxn
            exact ⟨hex, hAx, hsatx⟩
          · exact R.stagePre w' n (Or.inr heq)
      · intro w' n h
        rw [e9, hk]
        rcases h with h | h | ⟨cs, h⟩ | h <;> rw [e10] at h
        · exact R.stagePost w' n (Or.inl (update_elim_ne h (by simp)))
        · exact R.stagePost w' n (Or.inr (Or.inl (update_elim_ne h (by simp))))
        · exact R.stagePost w' n
            (Or.inr (Or.inr (Or.inl ⟨cs, update_elim_ne h (by simp)⟩)))
        · exact R.stagePost w' n
            (Or.inr (Or.inr (Or.inr (update_elim_ne h (by simp)))))
      · intro w' n h
        rw [e4]
        rcases h with h | h <;> rw [e10] at h
        · exact R.stageMid w' n (Or.inl (update_elim_ne h (by simp)))
        · exact R.stageMid w' n (Or.inr (update_elim_ne h (by simp)))
      · intro w' n h
        rw [e4]
        rcases h with ⟨cs, h⟩ | h <;> rw [e10] at h
        · exact R.stageLate w' n (Or.inl ⟨cs, update_elim_ne h (by simp)⟩)
        · exact R.stageLate w' n (Or.inr (update_elim_ne h (by simp)))
      · intro n hn
        rw [e1] at hn
        rw [e9, e4, hA n, hk]
        exact R.qProps n hn
      · intro n hn hp
        rw [e4, hA n]
        exact R.pendProps n hn (hPend n hp)
      · intro n hn hex' hnr
        rw [e4]
        rw [e9, hk] at hex'
        exact R.finSat n hn hex' (hnorun n hnr)
      · intro n hn hex'
        rw [hA n]
        rw [e9, hk] at hex'
        exact R.execsA n hn hex'
      · intro n hn
        rw [e1] at hn
        rw [hcnt n]
        have hnex : n ≠ x := by
          intro he
          exact R.qNoRun n hn w (by rw [h1, he]; simp [runsN])
        simp [hnex, R.cnt0q n hn]
      · intro n hn hp
        rw [hcnt n]
        have hnex : n ≠ x := by
          intro he
          subst he
          obtain ⟨_, hnr, _⟩ := hp
          exact hnr w (by rw [e10, Function.update_same]; simp [runsN])
        simp [hnex, R.cnt0p n hn (hPend n hp)]
      · intro w' n h
        rw [e10] at h
        rw [hcnt n]
        rcases eq_update_elim h with ⟨hww, heq⟩ | ⟨hww, heq⟩
        · cases heq
        · have hnex : n ≠ x := hnx w' hww n (by rw [heq]; simp [runsN])
          simp [hnex, R.cntPop w' n heq]
      · intro w' n h
        rw [hcnt n]
        rcases h with h | h <;> rw [e10] at h
        · rcases eq_update_elim h with ⟨hww, heq⟩ | ⟨hww, heq⟩
          · have hxn := WState.appended1.inj heq
            subst hxn
            simp [hcnt0]
          · have hnex : n ≠ x := hnx w' hww n (by rw [heq]; simp [runsN])
            simp [hnex, R.cnt1 w' n (Or.inl heq)]
        · rcases eq_update_elim h with ⟨hww, heq⟩ | ⟨hww, heq⟩
          · cases heq
          · have hnex : n ≠ x := hnx w' hww n (by rw [heq]; simp [runsN])
            simp [hnex, R.cnt1 w' n (Or.inr heq)]
      · intro w' n h
        rw [hcnt n]
        rcases h with h | ⟨cs, h⟩ | h <;> rw [e10] at h <;>
          rcases eq_update_elim h with ⟨hww, heq⟩ | ⟨hww, heq⟩
        · cases heq
        · have hnex : n ≠ x := hnx w' hww n (by rw [heq]; simp [runsN])
          simp [hnex, R.cnt2w w' n (Or.inl heq)]
        · cases heq
        · have hnex : n ≠ x := hnx w' hww n (by rw [heq]; simp [runsN])
          simp [hnex, R.cnt2w w' n (Or.inr (Or.inl ⟨cs, heq⟩))]
        · cases heq
        · have hnex : n ≠ x := hnx w' hww n (by rw [heq]; simp [runsN])
          simp [hnex, R.cnt2w w' n (Or.inr (Or.inr heq))]
      · intro n hn hex' hnr
        rw [hcnt n]
        rw [e9, hk] at hex'
        have hnex : n ≠ x := by
          intro he
          subst he
          omega
        simp [hnex, R.cnt2f n hn hex' (hnorun n hnr)]
      · rw [e7]
        refine ordOK_snoc R.ordOK ?_
        intro _ _ p hp
        exact h2tr p hp
      · rw [e8]; exact R.tdOK
    · intro habs
      rw [e3, hact] at habs
      cases habs

/-- One-step invariant preservation, case task body execution
(graph.c 603; `task_A` additionally increments `graph_loop`,
graph.c 706-710). -/
theorem inv_taskRun {G : Graph} {L P : Nat} {s s' : St P}
    (I : Inv G L s) (w : Fin P) (x : Nat)
    (h1 : s.workers w = .appended1 x)
    (e1 : s'.queue = s.queue) (e2 : s'.qlen = s.qlen)
    (e3 : s'.active = s.active) (e4 : s'.satisfied = s.satisfied)
    (e5 : s'.gloop = if x = G.entry then s.gloop + 1 else s.gloop)
    (e6 : s'.gloops = s.gloops)
    (e7 : s'.trace = s.trace) (e8 : s'.tracesDone = s.tracesDone)
    (e9 : s'.execs = Function.update s.execs x (s.execs x + 1))
    (e10 : s'.workers = Function.update s.workers w (.taskDone x)) :
    Inv G L s' := by
  cases hact : s.active with
  | false =>
    have D := I.2 hact
    rcases D.wIdle w with h | h <;> rw [h1] at h <;> cases h
  | true =>
    have R := I.1 hact
    have hxnodes : x ∈ G.nodes := R.runMem w x (by rw [h1]; simp [runsN])
    obtain ⟨hex, hAx, hsatx⟩ := R.stagePre w x (Or.inr h1)
    have hcnt1 : s.trace.count x = 1 := R.cnt1 w x (Or.inl h1)
    have hk : kOf s' = kOf s := by unfold kOf; rw [e8]
    have hexeq : ∀ n, n ≠ x → s'.execs n = s.execs n := by
      intro n hnex
      rw [e9, Function.update_noteq hnex]
    have hexx : s'.execs x = s.execs x + 1 := by
      rw [e9, Function.update_same]
    have harr : ∀ p c, arrB s' (kOf s) p c = arrB s (kOf s) p c := by
      intro p c
      by_cases hpx : p = x
      · subst hpx
        have hL : arrB s' (kOf s) p c = false := by
          simp only [arrB, Bool.and_eq_false_iff]
          right
          simp only [decide_eq_false_iff_not, not_forall]
          refine ⟨w, ?_⟩
          rw [e10, Function.update_same]
          simp [blockB]
        have hR : arrB s (kOf s) p c = false := by
          simp only [arrB, Bool.and_eq_false_iff]
          left
          simp only [beq_eq_false_iff_ne, Ne]
          omega
        rw [hL, hR]
      · apply arrB_congr (hexeq p hpx)
        intro w'
        rw [e10]
        by_cases hww : w' = w
        · subst hww
          rw [Function.update_same, h1]
          show blockB (.taskDone x) p c = blockB (.appended1 x) p c
          simp [blockB]
          intro h
          exact absurd h.symm hpx
        · rw [Function.update_noteq hww]
    have hA : ∀ c, Acnt G s' (kOf s') c = Acnt G s (kOf s) c := by
      intro c
      rw [hk]
      exact Acnt_congr (fun p _ => harr p c)
    have hnorun : ∀ n, (∀ w', ¬ runsN (s'.workers w') n) →
        ∀ w', ¬ runsN (s.workers w') n := by
      intro n h w' hr
      by_cases hww : w' = w
      · subst hww
        rw [h1] at hr
        have hxn : x = n := by simpa [runsN] using hr
        exact h w' (by rw [e10, Function.update_same]; simpa [runsN] using hxn)
      · exact h w' (by rw [e10, Function.update_noteq hww]; exact hr)
    have hrunx : runsN (s'.workers w) x := by
      rw [e10, Function.update_same]; simp [runsN]
    have hPend : ∀ n, Pend s' n → Pend s n := by
      intro n hp
      obtain ⟨hnq, hnr, hex'⟩ := hp
      rw [e1] at hnq
      have hnex : n ≠ x := fun he => hnr w (he ▸ hrunx)
      rw [hexeq n hnex, hk] at hex'
      exact ⟨hnq, hnorun n hnr, hex'⟩
    have hnx : ∀ w', w' ≠ w → ∀ n, runsN (s.workers w') n → n ≠ x := by
      intro w' hww n hr hxeq
      subst hxeq
      exact hww (R.uniq w' w n hr (by rw [h1]; simp [runsN]))
    constructor
    · intro _
      refine ⟨by rw [e3]; exact hact, ?_, ?_, ?_, ?_, ?_, ?_, ?_, ?_, ?_,
               ?_, ?_, ?_, ?_, ?_, ?_, ?_, ?_, ?_, ?_, ?_, ?_, ?_, ?_, ?_, ?_,
               ?_, ?_, ?_, ?_, ?_⟩
      · rw [e6]; exact R.loopsEq
      · rw [hk]; exact R.kLe
      · rw [e2, e1]; exact R.qlenEq
      · rw [e5]
        by_cases hxe : x = G.entry
        · subst hxe
          rw [if_pos rfl, hexx, R.gloopEq]
        · rw [if_neg hxe, hexeq G.entry (fun he => hxe he.symm)]
          exact R.gloopEq
      · rw [e1]; exact R.qNodup
      · rw [e1]; exact R.qMem
      · rw [e7]; exact R.trMem
      · intro w'
        rw [e10]
        by_cases hww : w' = w
        · subst hww; rw [Function.update_same]; simp
        · rw [Function.update_noteq hww]; exact R.noGone w'
      · intro w' n h
        rw [e10] at h
        rcases runsN_update_elim h with ⟨_, hr⟩ | ⟨_, hr⟩
        · have hxn : x = n := by simpa [runsN] using hr
          exact hxn ▸ hxnodes
        · exact R.runMem w' n hr
      · intro w' n h
        rw [e10] at h
        exact R.checkZ w' n (update_elim_ne h (by simp))
      · intro w' n cs h
        rw [e10] at h
        exact R.procWf w' n cs (update_elim_ne h (by simp))
      · intro w1 w2 n hr1 hr2
        rw [e10] at hr1 hr2
        rcases runsN_update_elim hr1 with ⟨hw1, hr1'⟩ | ⟨hw1, hr1'⟩ <;>
          rcases runsN_update_elim hr2 with ⟨hw2, hr2'⟩ | ⟨hw2, hr2'⟩
        · rw [hw1, hw2]
        · have hxn : x = n := by simpa [runsN] using hr1'
          exact absurd (hxn ▸ rfl : n = x) (hnx w2 hw2 n hr2')
        · have hxn : x = n := by simpa [runsN] using hr2'
          exact absurd (hxn ▸ rfl : n = x) (hnx w1 hw1 n hr1')
        · exact R.uniq w1 w2 n hr1' hr2'
      · intro n hn w' hr
        rw [e1] at hn
        rw [e10] at hr
        rcases runsN_update_elim hr with ⟨_, hr'⟩ | ⟨hww, hr'⟩
        · have hxn : x = n := by simpa [runsN] using hr'
          exact R.qNoRun n hn w (by rw [h1, ← hxn]; simp [runsN])
        · exact R.qNoRun n hn w' hr'
      · intro n hn
        rw [hk]
        by_cases hnex : n = x
        · subst hnex
          rw [hexx]
          right
          omega
        · rw [hexeq n hnex]
          exact R.execsRange n hn
      · intro w' n h
        rw [e4, hA n, hk]
        rcases h with h | h <;> rw [e10] at h
        · have heq := update_elim_ne h (by simp)
          have hnex : n ≠ x := by
            rcases eq_update_elim h with ⟨hww, habs⟩ | ⟨hww, hold⟩
            · cases habs
            · exact Ne.symm (hnx w' hww n (by rw [hold]; simp [runsN]) ∘ Eq.symm)
          rw [hexeq n hnex]
          exact R.stagePre w' n (Or.inl heq)
        · have heq := update_elim_ne h (by simp)
          have hnex : n ≠ x := by
            rcases eq_update_elim h with ⟨hww, habs⟩ | ⟨hww, hold⟩
            · cases habs
            · exact Ne.symm (hnx w' hww n (by rw [hold]; simp [runsN]) ∘ Eq.symm)
          rw [hexeq n hnex]
          exact R.stagePre w' n (Or.inr heq)
      · intro w' n h
        rw [hk]
        rcases h with h | h | ⟨cs, h⟩ | h <;> rw [e10] at h
        · rcases eq_update_elim h with ⟨hww, heq⟩ | ⟨hww, heq⟩
          · have hxn := WState.taskDone.inj heq
            subst hxn
            rw [hexx]
            exact hex
          · have hnex : n ≠ x :=
              Ne.symm (hnx w' hww n (by rw [heq]; simp [runsN]) ∘ Eq.symm)
            rw [hexeq n hnex]
            exact R.stagePost w' n (Or.inl heq)
        · have heq := update_elim_ne h (by simp)
          have hnex : n ≠ x := by
            rcases eq_update_elim h with ⟨hww, habs⟩ | ⟨hww, hold⟩
            · cases habs
            · exact Ne.symm (hnx w' hww n (by rw [hold]; simp [runsN]) ∘ Eq.symm)
          rw [hexeq n hnex]
          exact R.stagePost w' n (Or.inr (Or.inl heq))
        · have heq := update_elim_ne h (by simp)
          have hnex : n ≠ x := by
            rcases eq_update_elim h with ⟨hww, habs⟩ | ⟨hww, hold⟩
            · cases habs
            · exact Ne.symm (hnx w' hww n (by rw [hold]; simp [runsN]) ∘ Eq.symm)
          rw [hexeq n hnex]
          exact R.stagePost w' n (Or.inr (Or.inr (Or.inl ⟨cs, heq⟩)))
        · have heq := update_elim_ne h (by simp)
          have hnex : n ≠ x := by
            rcases eq_update_elim h with ⟨hww, habs⟩ | ⟨hww, hold⟩
            · cases habs
            · exact Ne.symm (hnx w' hww n (by rw [hold]; simp [runsN]) ∘ Eq.symm)
          rw [hexeq n hnex]
          exact R.stagePost w' n (Or.inr (Or.inr (Or.inr heq)))
      · intro w' n h
        rw [e4]
        rcases h with h | h <;> rw [e10] at h
        · rcases eq_update_elim h with ⟨hww, heq⟩ | ⟨hww, heq⟩
          · have hxn := WState.taskDone.inj heq
            subst hxn
            exact hsatx
          · exact R.stageMid w' n (Or.inl heq)
        · exact R.stageMid w' n (Or.inr (update_elim_ne h (by simp)))
      · intro w' n h
        rw [e4]
        rcases h with ⟨cs, h⟩ | h <;> rw [e10] at h
        · exact R.stageLate w' n (Or.inl ⟨cs, update_elim_ne h (by simp)⟩)
        · exact R.stageLate w' n (Or.inr (update_elim_ne h (by simp)))
      · intro n hn
        rw [e1] at hn
        rw [e4, hA n, hk]
        have hnex : n ≠ x := by
          intro he
          exact R.qNoRun n hn w (by rw [h1, he]; simp [runsN])
        rw [hexeq n hnex]
        exact R.qProps n hn
      · intro n hn hp
        rw [e4, hA n]
        exact R.pendProps n hn (hPend n hp)
      · intro n hn hex' hnr
        rw [e4]
        have hnex : n ≠ x := fun he => hnr w (he ▸ hrunx)
        rw [hexeq n hnex, hk] at hex'
        exact R.finSat n hn hex' (hnorun n hnr)
      · intro n hn hex'
        rw [hA n]
        by_cases hnex : n = x
        · subst hnex
          exact hAx
        · rw [hexeq n hnex, hk] at hex'
          exact R.execsA n hn hex'
      · intro n hn
        rw [e1] at hn
        rw [e7]
        exact R.cnt0q n hn
      · intro n hn hp
        rw [e7]
        exact R.cnt0p n hn (hPend n hp)
      · intro w' n h
        rw [e7]
        rw [e10] at h
        exact R.cntPop w' n (update_elim_ne h (by simp))
      · intro w' n h
        rw [e7]
        rcases h with h | h <;> rw [e10] at h
        · exact R.cnt1 w' n (Or.inl (update_elim_ne h (by simp)))
        · rcases eq_update_elim h with ⟨hww, heq⟩ | ⟨hww, heq⟩
          · have hxn := WState.taskDone.inj heq
            subst hxn
            exact hcnt1
          · exact R.cnt1 w' n (Or.inr heq)
      · intro w' n h
        rw [e7]
        rcases h with h | ⟨cs, h⟩ | h <;> rw [e10] at h
        · exact R.cnt2w w' n (Or.inl (update_elim_ne h (by simp)))
        · exact R.cnt2w w' n (Or.inr (Or.inl ⟨cs, update_elim_ne h (by simp)⟩))
        · exact R.cnt2w w' n (Or.inr (Or.inr (update_elim_ne h (by simp))))
      · intro n hn hex' hnr
        rw [e7]
        have hnex : n ≠ x := fun he => hnr w (he ▸ hrunx)
        rw [hexeq n hnex, hk] at hex'
        exact R.cnt2f n hn hex' (hnorun n hnr)
      · rw [e7]; exact R.ordOK
      · rw [e8]; exact R.tdOK
    · intro habs
      rw [e3, hact] at habs
      cases habs

/-- Core of invariant preservation for the reset step (graph.c 607-612):
the worker clears the node's satisfied counter and moves on to child
processing (or to the loop-boundary logic, or back to the loop head),
abstracted over the next control state `st2`. -/
theorem inv_resetGo_core {G : Graph} {L P : Nat} {s s' : St P}
    (I : Inv G L s) (w : Fin P) (x : Nat) (st2 : WState)
    (h1 : s.workers w = .appended2 x)
    (hA : st2 ≠ .gone)
    (hB : ∀ n, runsN st2 n → n = x)
    (hC : ∀ n, st2 = .atCheck n → n = G.termNode)
    (hD : ∀ n cs, st2 = .processing n cs →
      cs ≠ [] ∧ n ≠ G.termNode ∧ ∃ pre, G.children n = pre ++ cs)
    (hE : ∀ n, st2 ≠ .popped n ∧ st2 ≠ .appended1 n)
    (hF : ∀ n, st2 ≠ .taskDone n ∧ st2 ≠ .appended2 n)
    (hG : ∀ p c, p ∈ G.parents c → c ∈ G.nodes →
      blockB st2 p c = blockB (WState.appended2 x) p c)
    (e1 : s'.queue = s.queue) (e2 : s'.qlen = s.qlen)
    (e3 : s'.active = s.active)
    (e4 : s'.satisfied = Function.update s.satisfied x 0)
    (e5 : s'.gloop = s.gloop) (e6 : s'.gloops = s.gloops)
    (e7 : s'.trace = s.trace) (e8 : s'.tracesDone = s.tracesDone)
    (e9 : s'.execs = s.execs)
    (e10 : s'.workers = Function.update s.workers w st2) :
    Inv G L s' := by
  cases hact : s.active with
  | false =>
    have D := I.2 hact
    rcases D.wIdle w with h | h <;> rw [h1] at h <;> cases h
  | true =>
    have R := I.1 hact
    have hxnodes : x ∈ G.nodes := R.runMem w x (by rw [h1]; simp [runsN])
    have hexk : s.execs x = kOf s := R.stagePost w x (Or.inr (Or.inl h1))
    have hcnt2 : s.trace.count x = 2 := R.cnt2w w x (Or.inl h1)
    have hxnq : x ∉ s.queue := by
      intro hmem
      exact R.qNoRun x hmem w (by rw [h1]; simp [runsN])
    have hk : kOf s' = kOf s := by unfold kOf; rw [e8]
    have hsatx0 : s'.satisfied x = 0 := by rw [e4, Function.update_same]
    have hsateq : ∀ n, n ≠ x → s'.satisfied n = s.satisfied n := by
      intro n hnex
      rw [e4, Function.update_noteq hnex]
    have hA2 : ∀ c ∈ G.nodes, Acnt G s' (kOf s') c = Acnt G s (kOf s) c := by
      intro c hc
      rw [hk]
      refine Acnt_congr ?_
      intro p hp
      refine arrB_congr (by rw [e9]) ?_
      intro w'
      rw [e10]
      by_cases hww : w' = w
      · subst hww
        rw [Function.update_same, h1]
        exact hG p c hp hc
      · rw [Function.update_noteq hww]
    have hnorun : ∀ n, n ≠ x → (∀ w', ¬ runsN (s'.workers w') n) →
        ∀ w', ¬ runsN (s.workers w') n := by
      intro n hnex h w' hr
      by_cases hww : w' = w
      · subst hww
        rw [h1] at hr
        have hxn : x = n := by simpa [runsN] using hr
        exact hnex hxn.symm
      · exact h w' (by rw [e10, Function.update_noteq hww]; exact hr)
    have hnx : ∀ w', w' ≠ w → ∀ n, runsN (s.workers w') n → n ≠ x := by
      intro w' hww n hr hxeq
      subst hxeq
      exact hww (R.uniq w' w n hr (by rw [h1]; simp [runsN]))
    have hPend : ∀ n, n ≠ x → Pend s' n → Pend s n := by
      intro n hnex hp
      obtain ⟨hnq, hnr, hex'⟩ := hp
      rw [e1] at hnq
      rw [e9, hk] at hex'
      exact ⟨hnq, hnorun n hnex hnr, hex'⟩
    constructor
    · intro _
      refine ⟨by rw [e3]; exact hact, ?_, ?_, ?_, ?_, ?_, ?_, ?_, ?_, ?_,
               ?_, ?_, ?_, ?_, ?_, ?_, ?_, ?_, ?_, ?_, ?_, ?_, ?_, ?_, ?_, ?_,
               ?_, ?_, ?_, ?_, ?_⟩
      · rw [e6]; exact R.loopsEq
      · rw [hk]; exact R.kLe
      · rw [e2, e1]; exact R.qlenEq
      · rw [e5, e9]; exact R.gloopEq
      · rw [e1]; exact R.qNodup
      · rw [e1]; exact R.qMem
      · rw [e7]; exact R.trMem
      · intro w'
        rw [e10]
        by_cases hww : w' = w
        · subst hww; rw [Function.update_same]; exact hA
        · rw [Function.update_noteq hww]; exact R.noGone w'
      · intro w' n h
        rw [e10] at h
        rcases runsN_update_elim h with ⟨_, hr⟩ | ⟨_, hr⟩
        · exact (hB n hr) ▸ hxnodes
        · exact R.runMem w' n hr
      · intro w' n h
        rw [e10] at h
        rcases eq_update_elim h with ⟨_, heq⟩ | ⟨_, heq⟩
        · exact hC n heq
        · exact R.checkZ w' n heq
      · intro w' n cs h
        rw [e10] at h
        rcases eq_update_elim h with ⟨_, heq⟩ | ⟨_, heq⟩
        · exact hD n cs heq
        · exact R.procWf w' n cs heq
      · intro w1 w2 n hr1 hr2
        rw [e10] at hr1 hr2
        rcases runsN_update_elim hr1 with ⟨hw1, hr1'⟩ | ⟨hw1, hr1'⟩ <;>
          rcases runsN_update_elim hr2 with ⟨hw2, hr2'⟩ | ⟨hw2, hr2'⟩
        · rw [hw1, hw2]
        · exact absurd (hB n hr1') (hnx w2 hw2 n hr2')
        · exact absurd (hB n hr2') (hnx w1 hw1 n hr1')
        · exact R.uniq w1 w2 n hr1' hr2'
      · intro n hn w' hr
        rw [e1] at hn
        rw [e10] at hr
        rcases runsN_update_elim hr with ⟨_, hr'⟩ | ⟨hww, hr'⟩
        · exact hxnq ((hB n hr') ▸ hn)
        · exact R.qNoRun n hn w' hr'
      · intro n hn
        rw [e9, hk]
        exact R.execsRange n hn
      · intro w' n h
        rcases h with h | h <;> rw [e10] at h
        · rcases eq_update_elim h with ⟨_, heq⟩ | ⟨hww, heq⟩
          · exact absurd heq (hE n).1
          · have hnex : n ≠ x :=
              Ne.symm (hnx w' hww n (by rw [heq]; simp [runsN]) ∘ Eq.symm)
            have hnn : n ∈ G.nodes :=
              R.runMem w' n (by rw [heq]; simp [runsN])
            rw [e9, hsateq n hnex, hA2 n hnn, hk]
            exact R.stagePre w' n (Or.inl heq)
        · rcases eq_update_elim h with ⟨_, heq⟩ | ⟨hww, heq⟩
          · exact absurd heq (hE n).2
          · have hnex : n ≠ x :=
              Ne.symm (hnx w' hww n (by rw [heq]; simp [runsN]) ∘ Eq.symm)
            have hnn : n ∈ G.nodes :=
              R.runMem w' n (by rw [heq]; simp [runsN])
            rw [e9, hsateq n hnex, hA2 n hnn, hk]
            exact R.stagePre w' n (Or.inr heq)
      · intro w' n h
        rw [e9, hk]
        rcases h with h | h | ⟨cs, h⟩ | h <;> rw [e10] at h
        · rcases eq_update_elim h with ⟨_, heq⟩ | ⟨_, heq⟩
          · exact absurd heq (hF n).1
          · exact R.stagePost w' n (Or.inl heq)
        · rcases eq_update_elim h with ⟨_, heq⟩ | ⟨_, heq⟩
          · exact absurd heq (hF n).2
          · exact R.stagePost w' n (Or.inr (Or.inl heq))
        · rcases eq_update_elim h with ⟨_, heq⟩ | ⟨_, heq⟩
          · exact (hB n (by rw [heq]; simp [runsN])) ▸ hexk
          · exact R.stagePost w' n (Or.inr (Or.inr (Or.inl ⟨cs, heq⟩)))
        · rcases eq_update_elim h with ⟨_, heq⟩ | ⟨_, heq⟩
          · exact (hB n (by rw [heq]; simp [runsN])) ▸ hexk
          · exact R.stagePost w' n (Or.inr (Or.inr (Or.inr heq)))
      · intro w' n h
        rcases h with h | h <;> rw [e10] at h
        · rcases eq_update_elim h with ⟨_, heq⟩ | ⟨hww, heq⟩
          · exact absurd heq (hF n).1
          · have hnex : n ≠ x :=
              Ne.symm (hnx w' hww n (by rw [heq]; simp [runsN]) ∘ Eq.symm)
            rw [hsateq n hnex]
            exact R.stageMid w' n (Or.inl heq)
        · rcases eq_update_elim h with ⟨_, heq⟩ | ⟨hww, heq⟩
          · exact absurd heq (hF n).2
          · have hnex : n ≠ x :=
              Ne.symm (hnx w' hww n (by rw [heq]; simp [runsN]) ∘ Eq.symm)
            rw [hsateq n hnex]
            exact R.stageMid w' n (Or.inr heq)
      · intro w' n h
        rcases h with ⟨cs, h⟩ | h <;> rw [e10] at h
        · rcases eq_update_elim h with ⟨_, heq⟩ | ⟨hww, heq⟩
          · rw [(hB n (by rw [heq]; simp [runsN]))]
            exact hsatx0
          · have hnex : n ≠ x :=
              Ne.symm (hnx w' hww n (by rw [heq]; simp [runsN]) ∘ Eq.symm)
            rw [hsateq n hnex]
            exact R.stageLate w' n (Or.inl ⟨cs, heq⟩)
        · rcases eq_update_elim h with ⟨_, heq⟩ | ⟨hww, heq⟩
          · rw [(hB n (by rw [heq]; simp [runsN]))]
            exact hsatx0
          · have hnex : n ≠ x :=
              Ne.symm (hnx w' hww n (by rw [heq]; simp [runsN]) ∘ Eq.symm)
            rw [hsateq n hnex]
            exact R.stageLate w' n (Or.inr heq)
      · intro n hn
        rw [e1] at hn
        have hnex : n ≠ x := fun he => hxnq (he ▸ hn)
        have hnn : n ∈ G.nodes := R.qMem n hn
        rw [e9, hsateq n hnex, hA2 n hnn, hk]
        exact R.qProps n hn
      · intro n hn hp
        by_cases hnex : n = x
        · subst hnex
          obtain ⟨_, _, hex'⟩ := hp
          rw [e9, hk] at hex'
          omega
        · rw [hsateq n hnex, hA2 n hn]
          exact R.pendProps n hn (hPend n hnex hp)
      · intro n hn hex' hnr
        by_cases hnex : n = x
        · subst hnex
          exact hsatx0
        · rw [hsateq n hnex]
          rw [e9, hk] at hex'
          exact R.finSat n hn hex' (hnorun n hnex hnr)
      · intro n hn hex'
        rw [hA2 n hn]
        rw [e9, hk] at hex'
        exact R.execsA n hn hex'
      · intro n hn
        rw [e1] at hn
        rw [e7]
        exact R.cnt0q n hn
      · intro n hn hp
        rw [e7]
        by_cases hnex : n = x
        · subst hnex
          obtain ⟨_, _, hex'⟩ := hp
          rw [e9, hk] at hex'
          omega
        · exact R.cnt0p n hn (hPend n hnex hp)
      · intro w' n h
        rw [e7]
        rw [e10] at h
        rcases eq_update_elim h with ⟨_, heq⟩ | ⟨_, heq⟩
        · exact absurd heq (hE n).1
        · exact R.cntPop w' n heq
      · intro w' n h
        rw [e7]
        rcases h with h | h <;> rw [e10] at h
        · rcases eq_update_elim h with ⟨_, heq⟩ | ⟨_, heq⟩
          · exact absurd heq (hE n).2
          · exact R.cnt1 w' n (Or.inl heq)
        · rcases eq_update_elim h with ⟨_, heq⟩ | ⟨_, heq⟩
          · exact absurd heq (hF n).1
          · exact R.cnt1 w' n (Or.inr heq)
      · intro w' n h
        rw [e7]
        rcases h with h | ⟨cs, h⟩ | h <;> rw [e10] at h
        · rcases eq_update_elim h with ⟨_, heq⟩ | ⟨_, heq⟩
          · exact absurd heq (hF n).2
          · exact R.cnt2w w' n (Or.inl heq)
        · rcases eq_update_elim h with ⟨_, heq⟩ | ⟨_, heq⟩
          · exact (hB n (by rw [heq]; simp [runsN])) ▸ hcnt2
          · exact R.cnt2w w' n (Or.inr (Or.inl ⟨cs, heq⟩))
        · rcases eq_update_elim h with ⟨_, heq⟩ | ⟨_, heq⟩
          · exact (hB n (by rw [heq]; simp [runsN])) ▸ hcnt2
          · exact R.cnt2w w' n (Or.inr (Or.inr heq))
      · intro n hn hex' hnr
        rw [e7]
        by_cases hnex : n = x
        · subst hnex
          exact hcnt2
        · rw [e9, hk] at hex'
          exact R.cnt2f n hn hex' (hnorun n hnex hnr)
      · rw [e7]; exact R.ordOK
      · rw [e8]; exact R.tdOK
    · intro habs
      rw [e3, hact] at habs
      cases habs

/-- One-step invariant preservation, case reset-and-branch
(graph.c 607-612): requires the graph to be well formed for the
children/parents duality. -/
theorem inv_resetGo {G : Graph} {L P : Nat} {s s' : St P} (hwf : WF G)
    (I : Inv G L s) (w : Fin P) (x : Nat)
    (h1 : s.workers w = .appended2 x)
    (e1 : s'.queue = s.queue) (e2 : s'.qlen = s.qlen)
    (e3 : s'.active = s.active)
    (e4 : s'.satisfied = Function.update s.satisfied x 0)
    (e5 : s'.gloop = s.gloop) (e6 : s'.gloops = s.gloops)
    (e7 : s'.trace = s.trace) (e8 : s'.tracesDone = s.tracesDone)
    (e9 : s'.execs = s.execs)
    (e10 : s'.workers = Function.update s.workers w
      (if x = G.termNode then .atCheck x
       else if G.children x = [] then .idle
       else .processing x (G.children x))) :
    Inv G L s' := by
  have hxnodes : x ∈ G.nodes := by
    cases hact : s.active with
    | false =>
      have D := I.2 hact
      rcases D.wIdle w with h | h <;> rw [h1] at h <;> cases h
    | true =>
      exact (I.1 hact).runMem w x (by rw [h1]; simp [runsN])
  by_cases hxz : x = G.termNode
  · rw [if_pos hxz] at e10
    refine inv_resetGo_core I w x (.atCheck x) h1 (by simp) ?_ ?_ ?_ ?_ ?_ ?_
      e1 e2 e3 e4 e5 e6 e7 e8 e9 e10
    · intro n hr; simpa [runsN] using hr.symm
    · intro n heq; exact hxz ▸ (WState.atCheck.inj heq).symm
    · intro n cs heq; cases heq
    · intro n; simp
    · intro n; simp
    · intro p c hp hc
      by_cases hpx : p = x
      · subst hpx
        have hcz : c ∈ G.children p :=
          (hwf.dual p hxnodes c hc).mpr hp
        rw [hxz] at hcz
        rw [hwf.termNoChildren] at hcz
        cases hcz
      · simp [blockB]
        intro h
        exact absurd h.symm hpx
  · rw [if_neg hxz] at e10
    by_cases hch : G.children x = []
    · rw [if_pos hch] at e10
      refine inv_resetGo_core I w x .idle h1 (by simp) ?_ ?_ ?_ ?_ ?_ ?_
        e1 e2 e3 e4 e5 e6 e7 e8 e9 e10
      · intro n hr; simp [runsN] at hr
      · intro n heq; cases heq
      · intro n cs heq; cases heq
      · intro n; simp
      · intro n; simp
      · intro p c hp hc
        by_cases hpx : p = x
        · subst hpx
          have hcz : c ∈ G.children p :=
            (hwf.dual p hxnodes c hc).mpr hp
          rw [hch] at hcz
          cases hcz
        · simp [blockB]
          intro h
          exact absurd h.symm hpx
    · rw [if_neg hch] at e10
      refine inv_resetGo_core I w x (.processing x (G.children x)) h1
        (by simp) ?_ ?_ ?_ ?_ ?_ ?_ e1 e2 e3 e4 e5 e6 e7 e8 e9 e10
      · intro n hr; simpa [runsN] using hr.symm
      · intro n heq; cases heq
      · intro n cs heq
        have h1' := WState.processing.inj heq
        refine ⟨h1'.2 ▸ hch, h1'.1 ▸ hxz, [], ?_⟩
        rw [← h1'.1, ← h1'.2]
        simp
      · intro n; simp
      · intro n; simp
      · intro p c hp hc
        by_cases hpx : p = x
        · subst hpx
          have hcz : c ∈ G.children p :=
            (hwf.dual p hxnodes c hc).mpr hp
          simp [blockB, hcz]
        · simp [blockB]
          intro h
          exact absurd h.symm hpx

theorem runsN_of_blockB {st : WState} {p c : Nat} (h : blockB st p c = true) :
    runsN st p := by
  cases st with
  | taskDone m => simp [blockB] at h; simpa [runsN] using h
  | appended2 m => simp [blockB] at h; simpa [runsN] using h
  | processing m cs => simp [blockB] at h; simpa [runsN] using h.1
  | idle => simp [blockB] at h
  | popped m => simp [blockB] at h
  | appended1 m => simp [blockB] at h
  | atCheck m => simp [blockB] at h
  | gone => simp [blockB] at h

/-- Facts available when a worker is about to `arrive` at child `c` of
node `x` (graph.c 647-652): in particular `c` has not yet been enqueued
this loop and its satisfied counter equals its arrival count, which is
still short of `required`. -/
structure ArriveFacts (G : Graph) {P : Nat} (s : St P) (w : Fin P)
    (x c : Nat) (cs : List Nat) : Prop where
  xnodes : x ∈ G.nodes
  cnodes : c ∈ G.nodes
  cchild : c ∈ G.children x
  xparent : x ∈ G.parents c
  xexec : s.execs x = kOf s
  arrF : arrB s (kOf s) x c = false
  cnq : c ∉ s.queue
  cnr : ∀ w', ¬ runsN (s.workers w') c
  cex : s.execs c + 1 = kOf s
  satc : s.satisfied c = Acnt G s (kOf s) c
  Alt : Acnt G s (kOf s) c < G.required c
  cnt0 : s.trace.count c = 0
  cnex : c ≠ x
  suffix : ∃ pre, G.children x = pre ++ c :: cs
  xnterm : x ≠ G.termNode
  cncs : c ∉ cs

theorem arrive_facts {G : Graph} {L P : Nat} {s : St P} (hwf : WF G)
    (R : RunInv G L s) {w : Fin P} {x c : Nat} {cs : List Nat}
    (h1 : s.workers w = .processing x (c :: cs)) :
    ArriveFacts G s w x c cs := by
  have hxnodes : x ∈ G.nodes := R.runMem w x (by rw [h1]; simp [runsN])
  obtain ⟨-, hxz, pre, hchild⟩ := R.procWf w x (c :: cs) h1
  have hcx : c ∈ G.children x := by
    rw [hchild]
    exact List.mem_append.mpr (Or.inr (List.mem_cons_self c cs))
  have hcnodes : c ∈ G.nodes := hwf.childMem x hxnodes c hcx
  have hpx : x ∈ G.parents c := (hwf.dual x hxnodes c hcnodes).mp hcx
  have hexkx : s.execs x = kOf s :=
    R.stagePost w x (Or.inr (Or.inr (Or.inl ⟨c :: cs, h1⟩)))
  have harrF : arrB s (kOf s) x c = false := by
    simp only [arrB, Bool.and_eq_false_iff]
    right
    simp only [decide_eq_false_iff_not, not_forall]
    refine ⟨w, ?_⟩
    rw [h1]
    simp [blockB]
  have hAclt : Acnt G s (kOf s) c < G.required c := by
    rw [hwf.reqEq c hcnodes]
    exact Acnt_lt_of_not_arr hpx harrF
  have hcnq : c ∉ s.queue := by
    intro hmem
    obtain ⟨-, -, hAq⟩ := R.qProps c hmem
    omega
  have hcnr : ∀ w', ¬ runsN (s.workers w') c := by
    intro w' hr
    rcases runsN_cases hr with h' | h' | h' | h' | ⟨cs', h'⟩ | h'
    · obtain ⟨-, hAq, -⟩ := R.stagePre w' c (Or.inl h'); omega
    · obtain ⟨-, hAq, -⟩ := R.stagePre w' c (Or.inr h'); omega
    · have hAq := R.execsA c hcnodes (R.stagePost w' c (Or.inl h')); omega
    · have hAq := R.execsA c hcnodes
        (R.stagePost w' c (Or.inr (Or.inl h'))); omega
    · have hAq := R.execsA c hcnodes
        (R.stagePost w' c (Or.inr (Or.inr (Or.inl ⟨cs', h'⟩)))); omega
    · have hAq := R.execsA c hcnodes
        (R.stagePost w' c (Or.inr (Or.inr (Or.inr h')))); omega
  have hcex : s.execs c + 1 = kOf s := by
    rcases R.execsRange c hcnodes with h' | h'
    · exact h'
    · have hAq := R.execsA c hcnodes h'; omega
  have hpend : Pend s c := ⟨hcnq, hcnr, hcex⟩
  have hcnex : c ≠ x := by
    intro he
    exact hcnr w (by rw [h1, he]; simp [runsN])
  have hcncs : c ∉ cs := by
    have hnd := hwf.childNodup x hxnodes
    rw [hchild] at hnd
    have := hnd.of_append_right
    exact (List.nodup_cons.mp this).1
  exact ⟨hxnodes, hcnodes, hcx, hpx, hexkx, harrF, hcnq, hcnr, hcex,
    (R.pendProps c hcnodes hpend).1, hAclt, R.cnt0p c hcnodes hpend, hcnex,
    ⟨pre, hchild⟩, hxz, hcncs⟩

/-- Properties of the worker's next control state after one `arrive`:
either the next child of the list, or back to the loop head. -/
structure ArriveSt2 (G : Graph) (x c : Nat) (cs : List Nat)
    (st2 : WState) : Prop where
  ngone : st2 ≠ .gone
  runs_eq : ∀ n, runsN st2 n → n = x
  natCheck : ∀ n, st2 ≠ .atCheck n
  proc : ∀ n cs', st2 = .processing n cs' →
    cs' ≠ [] ∧ n ≠ G.termNode ∧ ∃ pre, G.children n = pre ++ cs'
  npop : ∀ n, st2 ≠ .popped n ∧ st2 ≠ .appended1 n
  nmid : ∀ n, st2 ≠ .taskDone n ∧ st2 ≠ .appended2 n
  blockc : blockB st2 x c = false
  blockd : ∀ p d, d ≠ c →
    blockB st2 p d = blockB (WState.processing x (c :: cs)) p d
  blockpc : ∀ p, p ≠ x → blockB st2 p c = false

theorem arrive_st2 {G : Graph} {x c : Nat} {cs pre : List Nat}
    (hchild : G.children x = pre ++ c :: cs) (hxz : x ≠ G.termNode)
    (hcncs : c ∉ cs) :
    ArriveSt2 G x c cs (if cs = [] then .idle else .processing x cs) := by
  by_cases hcs : cs = []
  · rw [if_pos hcs]
    subst hcs
    refine ⟨by simp, ?_, by simp, ?_, by simp, by simp, by simp [blockB], ?_,
      by intro p _; simp [blockB]⟩
    · intro n hr; simp [runsN] at hr
    · intro n cs' heq; cases heq
    · intro p d hd
      by_cases hpx : p = x
      · subst hpx
        simp [blockB, hd]
      · have hbne : (x == p) = false :=
          beq_eq_false_iff_ne.mpr (fun h => hpx h.symm)
        simp [blockB, hbne]
  · rw [if_neg hcs]
    refine ⟨by simp, ?_, by simp, ?_, by simp, by simp, ?_, ?_, ?_⟩
    · intro n hr; simpa [runsN] using hr.symm
    · intro n cs' heq
      have h := WState.processing.inj heq
      refine ⟨h.2 ▸ hcs, h.1 ▸ hxz, pre ++ [c], ?_⟩
      rw [← h.1, ← h.2, hchild]
      simp
    · simp [blockB]
      intro h
      exact absurd h hcncs
    · intro p d hd
      by_cases hpx : p = x
      · subst hpx
        simp [blockB, hd]
      · have hbne : (x == p) = false :=
          beq_eq_false_iff_ne.mpr (fun h => hpx h.symm)
        simp [blockB, hbne]
    · intro p hpx
      have hbne : (x == p) = false :=
        beq_eq_false_iff_ne.mpr (fun h => hpx h.symm)
      simp [blockB, hbne]

/-- Effect of one `arrive` on the arrival counts: the edge `x → c` fires
(so `c`'s count goes up by one) and every other count is unchanged. -/
theorem arrive_Acnt {G : Graph} {L P : Nat} {s s' : St P} (hwf : WF G)
    (R : RunInv G L s) {w : Fin P} {x c : Nat} {cs : List Nat}
    {st2 : WState}
    (h1 : s.workers w = .processing x (c :: cs))
    (hst2 : ArriveSt2 G x c cs st2)
    (F : ArriveFacts G s w x c cs)
    (e9 : s'.execs = s.execs)
    (e10 : s'.workers = Function.update s.workers w st2) :
    Acnt G s' (kOf s) c = Acnt G s (kOf s) c + 1 ∧
    (∀ d ∈ G.nodes, d ≠ c → Acnt G s' (kOf s) d = Acnt G s (kOf s) d) := by
  have hnoblock : ∀ w', w' ≠ w → blockB (s.workers w') x c = false := by
    intro w' hww
    cases hb : blockB (s.workers w') x c with
    | false => rfl
    | true =>
      have hr : runsN (s.workers w') x := runsN_of_blockB hb
      exact absurd (R.uniq w' w x hr (by rw [h1]; simp [runsN])) hww
  have harrT : arrB s' (kOf s) x c = true := by
    simp only [arrB, Bool.and_eq_true, beq_iff_eq, decide_eq_true_eq]
    constructor
    · rw [e9]; exact F.xexec
    · intro w'
      rw [e10]
      by_cases hww : w' = w
      · subst hww; rw [Function.update_same]; exact hst2.blockc
      · rw [Function.update_noteq hww]; exact hnoblock w' hww
  have harrO : ∀ p, p ≠ x → arrB s' (kOf s) p c = arrB s (kOf s) p c := by
    intro p hpx
    refine arrB_congr (by rw [e9]) ?_
    intro w'
    rw [e10]
    by_cases hww : w' = w
    · subst hww
      rw [Function.update_same, h1, hst2.blockpc p hpx]
      have hbne : (x == p) = false :=
        beq_eq_false_iff_ne.mpr (fun h => hpx h.symm)
      simp [blockB, hbne]
    · rw [Function.update_noteq hww]
  have harrD : ∀ p d, d ≠ c → arrB s' (kOf s) p d = arrB s (kOf s) p d := by
    intro p d hd
    refine arrB_congr (by rw [e9]) ?_
    intro w'
    rw [e10]
    by_cases hww : w' = w
    · subst hww
      rw [Function.update_same, h1]
      exact hst2.blockd p d hd
    · rw [Function.update_noteq hww]
  constructor
  · exact filter_length_succ (hwf.parentNodup c F.cnodes) F.xparent harrT
      F.arrF (fun y _ hyx => harrO y hyx)
  · intro d _ hd
    exact Acnt_congr (fun p _ => harrD p d hd)

/-- One-step invariant preservation, case `arrive` without enqueue
(graph.c 647-652, comparison false): the child's satisfied counter is
incremented under its mutex but does not reach `required`. -/
theorem inv_arriveWait {G : Graph} {L P : Nat} {s s' : St P} (hwf : WF G)
    (I : Inv G L s) (w : Fin P) (x c : Nat) (cs : List Nat) {st2 : WState}
    (h1 : s.workers w = .processing x (c :: cs))
    (h2 : G.required c ≠ s.satisfied c + 1)
    (hst2 : ArriveSt2 G x c cs st2)
    (e1 : s'.queue = s.queue) (e2 : s'.qlen = s.qlen)
    (e3 : s'.active = s.active)
    (e4 : s'.satisfied = Function.update s.satisfied c (s.satisfied c + 1))
    (e5 : s'.gloop = s.gloop) (e6 : s'.gloops = s.gloops)
    (e7 : s'.trace = s.trace) (e8 : s'.tracesDone = s.tracesDone)
    (e9 : s'.execs = s.execs)
    (e10 : s'.workers = Function.update s.workers w st2) :
    Inv G L s' := by
  cases hact : s.active with
  | false =>
    have D := I.2 hact
    rcases D.wIdle w with h | h <;> rw [h1] at h <;> cases h
  | true =>
    have R := I.1 hact
    have F := arrive_facts hwf R h1
    have hcex := F.cex
    have hk : kOf s' = kOf s := by unfold kOf; rw [e8]
    obtain ⟨hAc, hAd⟩ := arrive_Acnt hwf R h1 hst2 F e9 e10
    have hsatc' : s'.satisfied c = s.satisfied c + 1 := by
      rw [e4, Function.update_same]
    have hsateq : ∀ n, n ≠ c → s'.satisfied n = s.satisfied n := by
      intro n hnc
      rw [e4, Function.update_noteq hnc]
    have hsatx : s.satisfied x = 0 := R.stageLate w x (Or.inl ⟨c :: cs, h1⟩)
    have hcnt2x : s.trace.count x = 2 :=
      R.cnt2w w x (Or.inr (Or.inl ⟨c :: cs, h1⟩))
    have hxnq : x ∉ s.queue := by
      intro hmem
      exact R.qNoRun x hmem w (by rw [h1]; simp [runsN])
    have hnorun : ∀ n, n ≠ x → (∀ w', ¬ runsN (s'.workers w') n) →
        ∀ w', ¬ runsN (s.workers w') n := by
      intro n hnex h w' hr
      by_cases hww : w' = w
      · subst hww
        rw [h1] at hr
        have hxn : x = n := by simpa [runsN] using hr
        exact hnex hxn.symm
      · exact h w' (by rw [e10, Function.update_noteq hww]; exact hr)
    have hnx : ∀ w', w' ≠ w → ∀ n, runsN (s.workers w') n → n ≠ x := by
      intro w' hww n hr hxeq
      subst hxeq
      exact hww (R.uniq w' w n hr (by rw [h1]; simp [runsN]))
    have hrunnec : ∀ w' n, runsN (s.workers w') n → n ≠ c := by
      intro w' n hr he
      exact F.cnr w' (he ▸ hr)
    have hPend : ∀ n, n ≠ x → Pend s' n → Pend s n := by
      intro n hnex hp
      obtain ⟨hnq, hnr, hex'⟩ := hp
      rw [e1] at hnq
      rw [e9, hk] at hex'
      exact ⟨hnq, hnorun n hnex hnr, hex'⟩
    constructor
    · intro _
      refine ⟨by rw [e3]; exact hact, ?_, ?_, ?_, ?_, ?_, ?_, ?_, ?_, ?_,
               ?_, ?_, ?_, ?_, ?_, ?_, ?_, ?_, ?_, ?_, ?_, ?_, ?_, ?_, ?_, ?_,
               ?_, ?_, ?_, ?_, ?_⟩
      · rw [e6]; exact R.loopsEq
      · rw [hk]; exact R.kLe
      · rw [e2, e1]; exact R.qlenEq
      · rw [e5, e9]; exact R.gloopEq
      · rw [e1]; exact R.qNodup
      · rw [e1]; exact R.qMem
      · rw [e7]; exact R.trMem
      · intro w'
        rw [e10]
        by_cases hww : w' = w
        · subst hww; rw [Function.update_same]; exact hst2.ngone
        · rw [Function.update_noteq hww]; exact R.noGone w'
      · intro w' n h
        rw [e10] at h
        rcases runsN_update_elim h with ⟨_, hr⟩ | ⟨_, hr⟩
        · exact (hst2.runs_eq n hr) ▸ F.xnodes
        · exact R.runMem w' n hr
      · intro w' n h
        rw [e10] at h
        rcases eq_update_elim h with ⟨_, heq⟩ | ⟨_, heq⟩
        · exact absurd heq (hst2.natCheck n)
        · exact R.checkZ w' n heq
      · intro w' n cs' h
        rw [e10] at h
        rcases eq_update_elim h with ⟨_, heq⟩ | ⟨_, heq⟩
        · exact hst2.proc n cs' heq
        · exact R.procWf w' n cs' heq
      · intro w1 w2 n hr1 hr2
        rw [e10] at hr1 hr2
        rcases runsN_update_elim hr1 with ⟨hw1, hr1'⟩ | ⟨hw1, hr1'⟩ <;>
          rcases runsN_update_elim hr2 with ⟨hw2, hr2'⟩ | ⟨hw2, hr2'⟩
        · rw [hw1, hw2]
        · exact absurd (hst2.runs_eq n hr1') (hnx w2 hw2 n hr2')
        · exact absurd (hst2.runs_eq n hr2') (hnx w1 hw1 n hr1')
        · exact R.uniq w1 w2 n hr1' hr2'
      · intro n hn w' hr
        rw [e1] at hn
        rw [e10] at hr
        rcases runsN_update_elim hr with ⟨_, hr'⟩ | ⟨hww, hr'⟩
        · exact hxnq ((hst2.runs_eq n hr') ▸ hn)
        · exact R.qNoRun n hn w' hr'
      · intro n hn
        rw [e9, hk]
        exact R.execsRange n hn
      · intro w' n h
        rcases h with h | h <;> rw [e10] at h
        · rcases eq_update_elim h with ⟨_, heq⟩ | ⟨hww, heq⟩
          · exact absurd heq (hst2.npop n).1
          · have hnec : n ≠ c :=
              hrunnec w' n (by rw [heq]; simp [runsN])
            have hnn : n ∈ G.nodes :=
              R.runMem w' n (by rw [heq]; simp [runsN])
            rw [e9, hsateq n hnec, hk, hAd n hnn hnec]
            exact R.stagePre w' n (Or.inl heq)
        · rcases eq_update_elim h with ⟨_, heq⟩ | ⟨hww, heq⟩
          · exact absurd heq (hst2.npop n).2
          · have hnec : n ≠ c :=
              hrunnec w' n (by rw [heq]; simp [runsN])
            have hnn : n ∈ G.nodes :=
              R.runMem w' n (by rw [heq]; simp [runsN])
            rw [e9, hsateq n hnec, hk, hAd n hnn hnec]
            exact R.stagePre w' n (Or.inr heq)
      · intro w' n h
        rw [e9, hk]
        rcases h with h | h | ⟨cs', h⟩ | h <;> rw [e10] at h
        · rcases eq_update_elim h with ⟨_, heq⟩ | ⟨_, heq⟩
          · exact absurd heq (hst2.nmid n).1
          · exact R.stagePost w' n (Or.inl heq)
        · rcases eq_update_elim h with ⟨_, heq⟩ | ⟨_, heq⟩
          · exact absurd heq (hst2.nmid n).2
          · exact R.stagePost w' n (Or.inr (Or.inl heq))
        · rcases eq_update_elim h with ⟨_, heq⟩ | ⟨_, heq⟩
          · exact (hst2.runs_eq n (by rw [heq]; simp [runsN])) ▸ F.xexec
          · exact R.stagePost w' n (Or.inr (Or.inr (Or.inl ⟨cs', heq⟩)))
        · rcases eq_update_elim h with ⟨_, heq⟩ | ⟨_, heq⟩
          · exact (hst2.runs_eq n (by rw [heq]; simp [runsN])) ▸ F.xexec
          · exact R.stagePost w' n (Or.inr (Or.inr (Or.inr heq)))
      · intro w' n h
        rcases h with h | h <;> rw [e10] at h
        · rcases eq_update_elim h with ⟨_, heq⟩ | ⟨hww, heq⟩
          · exact absurd heq (hst2.nmid n).1
          · have hnec : n ≠ c :=
              hrunnec w' n (by rw [heq]; simp [runsN])
            rw [hsateq n hnec]
            exact R.stageMid w' n (Or.inl heq)
        · rcases eq_update_elim h with ⟨_, heq⟩ | ⟨hww, heq⟩
          · exact absurd heq (hst2.nmid n).2
          · have hnec : n ≠ c :=
              hrunnec w' n (by rw [heq]; simp [runsN])
            rw [hsateq n hnec]
            exact R.stageMid w' n (Or.inr heq)
      · intro w' n h
        rcases h with ⟨cs', h⟩ | h <;> rw [e10] at h
        · rcases eq_update_elim h with ⟨_, heq⟩ | ⟨hww, heq⟩
          · have hnxeq := hst2.runs_eq n (by rw [heq]; simp [runsN])
            subst hnxeq
            rw [hsateq n (Ne.symm F.cnex)]
            exact hsatx
          · have hnec : n ≠ c :=
              hrunnec w' n (by rw [heq]; simp [runsN])
            rw [hsateq n hnec]
            exact R.stageLate w' n (Or.inl ⟨cs', heq⟩)
        · rcases eq_update_elim h with ⟨_, heq⟩ | ⟨hww, heq⟩
          · exact absurd heq (hst2.natCheck n)
          · have hnec : n ≠ c :=
              hrunnec w' n (by rw [heq]; simp [runsN])
            rw [hsateq n hnec]
            exact R.stageLate w' n (Or.inr heq)
      · intro n hn
        rw [e1] at hn
        have hnec : n ≠ c := fun he => F.cnq (he ▸ hn)
        have hnn : n ∈ G.nodes := R.qMem n hn
        rw [e9, hsateq n hnec, hk, hAd n hnn hnec]
        exact R.qProps n hn
      · intro n hn hp
        by_cases hnc : n = c
        · subst hnc
          rw [hk, hsatc', hAc, F.satc]
          have hAlt := F.Alt
          have hsc := F.satc
          refine ⟨rfl, ?_⟩
          omega
        · by_cases hnxeq : n = x
          · subst hnxeq
            obtain ⟨-, -, hex'⟩ := hp
            rw [e9, hk] at hex'
            have := F.xexec
            omega
          · rw [hsateq n hnc, hk, hAd n hn hnc]
            exact R.pendProps n hn (hPend n hnxeq hp)
      · intro n hn hex' hnr
        by_cases hnc : n = c
        · subst hnc
          rw [e9, hk] at hex'
          omega
        · by_cases hnxeq : n = x
          · subst hnxeq
            rw [hsateq n hnc]
            exact hsatx
          · rw [hsateq n hnc]
            rw [e9, hk] at hex'
            exact R.finSat n hn hex' (hnorun n hnxeq hnr)
      · intro n hn hex'
        rw [e9, hk] at hex'
        by_cases hnc : n = c
        · subst hnc
          exact absurd hex' (by omega)
        · rw [hk, hAd n hn hnc]
          exact R.execsA n hn hex'
      · intro n hn
        rw [e1] at hn
        rw [e7]
        exact R.cnt0q n hn
      · intro n hn hp
        rw [e7]
        by_cases hnc : n = c
        · subst hnc
          exact F.cnt0
        · by_cases hnxeq : n = x
          · subst hnxeq
            obtain ⟨-, -, hex'⟩ := hp
            rw [e9, hk] at hex'
            have := F.xexec
            omega
          · exact R.cnt0p n hn (hPend n hnxeq hp)
      · intro w' n h
        rw [e7]
        rw [e10] at h
        rcases eq_update_elim h with ⟨_, heq⟩ | ⟨_, heq⟩
        · exact absurd heq (hst2.npop n).1
        · exact R.cntPop w' n heq
      · intro w' n h
        rw [e7]
        rcases h with h | h <;> rw [e10] at h
        · rcases eq_update_elim h with ⟨_, heq⟩ | ⟨_, heq⟩
          · exact absurd heq (hst2.npop n).2
          · exact R.cnt1 w' n (Or.inl heq)
        · rcases eq_update_elim h with ⟨_, heq⟩ | ⟨_, heq⟩
          · exact absurd heq (hst2.nmid n).1
          · exact R.cnt1 w' n (Or.inr heq)
      · intro w' n h
        rw [e7]
        rcases h with h | ⟨cs', h⟩ | h <;> rw [e10] at h
        · rcases eq_update_elim h with ⟨_, heq⟩ | ⟨_, heq⟩
          · exact absurd heq (hst2.nmid n).2
          · exact R.cnt2w w' n (Or.inl heq)
        · rcases eq_update_elim h with ⟨_, heq⟩ | ⟨_, heq⟩
          · exact (hst2.runs_eq n (by rw [heq]; simp [runsN])) ▸ hcnt2x
          · exact R.cnt2w w' n (Or.inr (Or.inl ⟨cs', heq⟩))
        · rcases eq_update_elim h with ⟨_, heq⟩ | ⟨_, heq⟩
          · exact absurd heq (hst2.natCheck n)
          · exact R.cnt2w w' n (Or.inr (Or.inr heq))
      · intro n hn hex' hnr
        rw [e7]
        rw [e9, hk] at hex'
        by_cases hnc : n = c
        · subst hnc
          omega
        · by_cases hnxeq : n = x
          · subst hnxeq
            exact hcnt2x
          · exact R.cnt2f n hn hex' (hnorun n hnxeq hnr)
      · rw [e7]; exact R.ordOK
      · rw [e8]; exact R.tdOK
    · intro habs
      rw [e3, hact] at habs
      cases habs

/-- One-step invariant preservation, case `arrive` with enqueue
(graph.c 647-652, comparison true): the child's satisfied counter reaches
`required` and the child is pushed onto the ready queue. -/
theorem inv_arriveFire {G : Graph} {L P : Nat} {s s' : St P} (hwf : WF G)
    (I : Inv G L s) (w : Fin P) (x c : Nat) (cs : List Nat) {st2 : WState}
    (h1 : s.workers w = .processing x (c :: cs))
    (h2 : G.required c = s.satisfied c + 1)
    (hst2 : ArriveSt2 G x c cs st2)
    (e1 : s'.queue = s.queue ++ [c]) (e2 : s'.qlen = s.qlen + 1)
    (e3 : s'.active = s.active)
    (e4 : s'.satisfied = Function.update s.satisfied c (s.satisfied c + 1))
    (e5 : s'.gloop = s.gloop) (e6 : s'.gloops = s.gloops)
    (e7 : s'.trace = s.trace) (e8 : s'.tracesDone = s.tracesDone)
    (e9 : s'.execs = s.execs)
    (e10 : s'.workers = Function.update s.workers w st2) :
    Inv G L s' := by
  cases hact : s.active with
  | false =>
    have D := I.2 hact
    rcases D.wIdle w with h | h <;> rw [h1] at h <;> cases h
  | true =>
    have R := I.1 hact
    have F := arrive_facts hwf R h1
    have hcex := F.cex
    have hk : kOf s' = kOf s := by unfold kOf; rw [e8]
    obtain ⟨hAc, hAd⟩ := arrive_Acnt hwf R h1 hst2 F e9 e10
    have hsatc' : s'.satisfied c = s.satisfied c + 1 := by
      rw [e4, Function.update_same]
    have hsateq : ∀ n, n ≠ c → s'.satisfied n = s.satisfied n := by
      intro n hnc
      rw [e4, Function.update_noteq hnc]
    have hsatx : s.satisfied x = 0 := R.stageLate w x (Or.inl ⟨c :: cs, h1⟩)
    have hcnt2x : s.trace.count x = 2 :=
      R.cnt2w w x (Or.inr (Or.inl ⟨c :: cs, h1⟩))
    have hxnq : x ∉ s.queue := by
      intro hmem
      exact R.qNoRun x hmem w (by rw [h1]; simp [runsN])
    have hnorun : ∀ n, n ≠ x → (∀ w', ¬ runsN (s'.workers w') n) →
        ∀ w', ¬ runsN (s.workers w') n := by
      intro n hnex h w' hr
      by_cases hww : w' = w
      · subst hww
        rw [h1] at hr
        have hxn : x = n := by simpa [runsN] using hr
        exact hnex hxn.symm
      · exact h w' (by rw [e10, Function.update_noteq hww]; exact hr)
    have hnx : ∀ w', w' ≠ w → ∀ n, runsN (s.workers w') n → n ≠ x := by
      intro w' hww n hr hxeq
      subst hxeq
      exact hww (R.uniq w' w n hr (by rw [h1]; simp [runsN]))
    have hrunnec : ∀ w' n, runsN (s.workers w') n → n ≠ c := by
      intro w' n hr he
      exact F.cnr w' (he ▸ hr)
    have hPend : ∀ n, n ≠ x → Pend s' n → Pend s n := by
      intro n hnex hp
      obtain ⟨hnq, hnr, hex'⟩ := hp
      rw [e1] at hnq
      rw [e9, hk] at hex'
      exact ⟨fun hm => hnq (List.mem_append.mpr (Or.inl hm)),
        hnorun n hnex hnr, hex'⟩
    constructor
    · intro _
      refine ⟨by rw [e3]; exact hact, ?_, ?_, ?_, ?_, ?_, ?_, ?_, ?_, ?_,
               ?_, ?_, ?_, ?_, ?_, ?_, ?_, ?_, ?_, ?_, ?_, ?_, ?_, ?_, ?_, ?_,
               ?_, ?_, ?_, ?_, ?_⟩
      · rw [e6]; exact R.loopsEq
      · rw [hk]; exact R.kLe
      · rw [e2, e1, R.qlenEq]
        simp [List.length_append]
      · rw [e5, e9]; exact R.gloopEq
      · rw [e1, List.nodup_append]
        refine ⟨R.qNodup, List.nodup_singleton c, ?_⟩
        intro a ha hac
        have hax : a = c := by simpa using hac
        exact F.cnq (hax ▸ ha)
      · rw [e1]
        intro n hn
        rcases List.mem_append.mp hn with hn | hn
        · exact R.qMem n hn
        · have : n = c := by simpa using hn
          exact this ▸ F.cnodes
      · rw [e7]; exact R.trMem
      · intro w'
        rw [e10]
        by_cases hww : w' = w
        · subst hww; rw [Function.update_same]; exact hst2.ngone
        · rw [Function.update_noteq hww]; exact R.noGone w'
      · intro w' n h
        rw [e10] at h
        rcases runsN_update_elim h with ⟨_, hr⟩ | ⟨_, hr⟩
        · exact (hst2.runs_eq n hr) ▸ F.xnodes
        · exact R.runMem w' n hr
      · intro w' n h
        rw [e10] at h
        rcases eq_update_elim h with ⟨_, heq⟩ | ⟨_, heq⟩
        · exact absurd heq (hst2.natCheck n)
        · exact R.checkZ w' n heq
      · intro w' n cs' h
        rw [e10] at h
        rcases eq_update_elim h with ⟨_, heq⟩ | ⟨_, heq⟩
        · exact hst2.proc n cs' heq
        · exact R.procWf w' n cs' heq
      · intro w1 w2 n hr1 hr2
        rw [e10] at hr1 hr2
        rcases runsN_update_elim hr1 with ⟨hw1, hr1'⟩ | ⟨hw1, hr1'⟩ <;>
          rcases runsN_update_elim hr2 with ⟨hw2, hr2'⟩ | ⟨hw2, hr2'⟩
        · rw [hw1, hw2]
        · exact absurd (hst2.runs_eq n hr1') (hnx w2 hw2 n hr2')
        · exact absurd (hst2.runs_eq n hr2') (hnx w1 hw1 n hr1')
        · exact R.uniq w1 w2 n hr1' hr2'
      · intro n hn w' hr
        rw [e1] at hn
        rw [e10] at hr
        rcases List.mem_append.mp hn with hn | hn
        · rcases runsN_update_elim hr with ⟨_, hr'⟩ | ⟨hww, hr'⟩
          · exact hxnq ((hst2.runs_eq n hr') ▸ hn)
          · exact R.qNoRun n hn w' hr'
        · have hnc : n = c := by simpa using hn
          subst hnc
          rcases runsN_update_elim hr with ⟨_, hr'⟩ | ⟨hww, hr'⟩
          · exact F.cnex (hst2.runs_eq n hr')
          · exact F.cnr w' hr'
      · intro n hn
        rw [e9, hk]
        exact R.execsRange n hn
      · intro w' n h
        rcases h with h | h <;> rw [e10] at h
        · rcases eq_update_elim h with ⟨_, heq⟩ | ⟨hww, heq⟩
          · exact absurd heq (hst2.npop n).1
          · have hnec : n ≠ c :=
              hrunnec w' n (by rw [heq]; simp [runsN])
            have hnn : n ∈ G.nodes :=
              R.runMem w' n (by rw [heq]; simp [runsN])
            rw [e9, hsateq n hnec, hk, hAd n hnn hnec]
            exact R.stagePre w' n (Or.inl heq)
        · rcases eq_update_elim h with ⟨_, heq⟩ | ⟨hww, heq⟩
          · exact absurd heq (hst2.npop n).2
          · have hnec : n ≠ c :=
              hrunnec w' n (by rw [heq]; simp [runsN])
            have hnn : n ∈ G.nodes :=
              R.runMem w' n (by rw [heq]; simp [runsN])
            rw [e9, hsateq n hnec, hk, hAd n hnn hnec]
            exact R.stagePre w' n (Or.inr heq)
      · intro w' n h
        rw [e9, hk]
        rcases h with h | h | ⟨cs', h⟩ | h <;> rw [e10] at h
        · rcases eq_update_elim h with ⟨_, heq⟩ | ⟨_, heq⟩
          · exact absurd heq (hst2.nmid n).1
          · exact R.stagePost w' n (Or.inl heq)
        · rcases eq_update_elim h with ⟨_, heq⟩ | ⟨_, heq⟩
          · exact absurd heq (hst2.nmid n).2
          · exact R.stagePost w' n (Or.inr (Or.inl heq))
        · rcases eq_update_elim h with ⟨_, heq⟩ | ⟨_, heq⟩
          · exact (hst2.runs_eq n (by rw [heq]; simp [runsN])) ▸ F.xexec
          · exact R.stagePost w' n (Or.inr (Or.inr (Or.inl ⟨cs', heq⟩)))
        · rcases eq_update_elim h with ⟨_, heq⟩ | ⟨_, heq⟩
          · exact (hst2.runs_eq n (by rw [heq]; simp [runsN])) ▸ F.xexec
          · exact R.stagePost w' n (Or.inr (Or.inr (Or.inr heq)))
      · intro w' n h
        rcases h with h | h <;> rw [e10] at h
        · rcases eq_update_elim h with ⟨_, heq⟩ | ⟨hww, heq⟩
          · exact absurd heq (hst2.nmid n).1
          · have hnec : n ≠ c :=
              hrunnec w' n (by rw [heq]; simp [runsN])
            rw [hsateq n hnec]
            exact R.stageMid w' n (Or.inl heq)
        · rcases eq_update_elim h with ⟨_, heq⟩ | ⟨hww, heq⟩
          · exact absurd heq (hst2.nmid n).2
          · have hnec : n ≠ c :=
              hrunnec w' n (by rw [heq]; simp [runsN])
            rw [hsateq n hnec]
            exact R.stageMid w' n (Or.inr heq)
      · intro w' n h
        rcases h with ⟨cs', h⟩ | h <;> rw [e10] at h
        · rcases eq_update_elim h with ⟨_, heq⟩ | ⟨hww, heq⟩
          · have hnxeq := hst2.runs_eq n (by rw [heq]; simp [runsN])
            subst hnxeq
            rw [hsateq n (Ne.symm F.cnex)]
            exact hsatx
          · have hnec : n ≠ c :=
              hrunnec w' n (by rw [heq]; simp [runsN])
            rw [hsateq n hnec]
            exact R.stageLate w' n (Or.inl ⟨cs', heq⟩)
        · rcases eq_update_elim h with ⟨_, heq⟩ | ⟨hww, heq⟩
          · exact absurd heq (hst2.natCheck n)
          · have hnec : n ≠ c :=
              hrunnec w' n (by rw [heq]; simp [runsN])
            rw [hsateq n hnec]
            exact R.stageLate w' n (Or.inr heq)
      · intro n hn
        rw [e1] at hn
        rcases List.mem_append.mp hn with hn | hn
        · have hnec : n ≠ c := fun he => F.cnq (he ▸ hn)
          have hnn : n ∈ G.nodes := R.qMem n hn
          rw [e9, hsateq n hnec, hk, hAd n hnn hnec]
          exact R.qProps n hn
        · have hnc : n = c := by simpa using hn
          subst hnc
          refine ⟨by rw [e9, hk]; exact F.cex, by rw [hsatc']; exact h2.symm, ?_⟩
          rw [hk, hAc]
          have hsc := F.satc
          omega
      · intro n hn hp
        by_cases hnc : n = c
        · subst hnc
          obtain ⟨hnq, -, -⟩ := hp
          rw [e1] at hnq
          exact absurd (List.mem_append.mpr (Or.inr (by simp))) hnq
        · by_cases hnxeq : n = x
          · subst hnxeq
            obtain ⟨-, -, hex'⟩ := hp
            rw [e9, hk] at hex'
            have := F.xexec
            omega
          · rw [hsateq n hnc, hk, hAd n hn hnc]
            exact R.pendProps n hn (hPend n hnxeq hp)
      · intro n hn hex' hnr
        by_cases hnc : n = c
        · subst hnc
          rw [e9, hk] at hex'
          omega
        · by_cases hnxeq : n = x
          · subst hnxeq
            rw [hsateq n hnc]
            exact hsatx
          · rw [hsateq n hnc]
            rw [e9, hk] at hex'
            exact R.finSat n hn hex' (hnorun n hnxeq hnr)
      · intro n hn hex'
        rw [e9, hk] at hex'
        by_cases hnc : n = c
        · subst hnc
          exact absurd hex' (by omega)
        · rw [hk, hAd n hn hnc]
          exact R.execsA n hn hex'
      · intro n hn
        rw [e1] at hn
        rw [e7]
        rcases List.mem_append.mp hn with hn | hn
        · exact R.cnt0q n hn
        · have hnc : n = c := by simpa using hn
          exact hnc ▸ F.cnt0
      · intro n hn hp
        rw [e7]
        by_cases hnc : n = c
        · subst hnc
          obtain ⟨hnq, -, -⟩ := hp
          rw [e1] at hnq
          exact absurd (List.mem_append.mpr (Or.inr (by simp))) hnq
        · by_cases hnxeq : n = x
          · subst hnxeq
            obtain ⟨-, -, hex'⟩ := hp
            rw [e9, hk] at hex'
            have := F.xexec
            omega
          · exact R.cnt0p n hn (hPend n hnxeq hp)
      · intro w' n h
        rw [e7]
        rw [e10] at h
        rcases eq_update_elim h with ⟨_, heq⟩ | ⟨_, heq⟩
        · exact absurd heq (hst2.npop n).1
        · exact R.cntPop w' n heq
      · intro w' n h
        rw [e7]
        rcases h with h | h <;> rw [e10] at h
        · rcases eq_update_elim h with ⟨_, heq⟩ | ⟨_, heq⟩
          · exact absurd heq (hst2.npop n).2
          · exact R.cnt1 w' n (Or.inl heq)
        · rcases eq_update_elim h with ⟨_, heq⟩ | ⟨_, heq⟩
          · exact absurd heq (hst2.nmid n).1
          · exact R.cnt1 w' n (Or.inr heq)
      · intro w' n h
        rw [e7]
        rcases h with h | ⟨cs', h⟩ | h <;> rw [e10] at h
        · rcases eq_update_elim h with ⟨_, heq⟩ | ⟨_, heq⟩
          · exact absurd heq (hst2.nmid n).2
          · exact R.cnt2w w' n (Or.inl heq)
        · rcases eq_update_elim h with ⟨_, heq⟩ | ⟨_, heq⟩
          · exact (hst2.runs_eq n (by rw [heq]; simp [runsN])) ▸ hcnt2x
          · exact R.cnt2w w' n (Or.inr (Or.inl ⟨cs', heq⟩))
        · rcases eq_update_elim h with ⟨_, heq⟩ | ⟨_, heq⟩
          · exact absurd heq (hst2.natCheck n)
          · exact R.cnt2w w' n (Or.inr (Or.inr heq))
      · intro n hn hex' hnr
        rw [e7]
        rw [e9, hk] at hex'
        by_cases hnc : n = c
        · subst hnc
          omega
        · by_cases hnxeq : n = x
          · subst hnxeq
            exact hcnt2x
          · exact R.cnt2f n hn hex' (hnorun n hnxeq hnr)
      · rw [e7]; exact R.ordOK
      · rw [e8]; exact R.tdOK
    · intro habs
      rw [e3, hact] at habs
      cases habs

/-- A node whose arrival count is still short of `required` has not yet
been enqueued in the current loop. -/
theorem pend_of_Acnt_lt {G : Graph} {L P : Nat} {s : St P}
    (R : RunInv G L s) {c : Nat} (hc : c ∈ G.nodes)
    (hAlt : Acnt G s (kOf s) c < G.required c) : Pend s c := by
  have hcnq : c ∉ s.queue := by
    intro hmem
    obtain ⟨-, -, hAq⟩ := R.qProps c hmem
    omega
  have hcnr : ∀ w', ¬ runsN (s.workers w') c := by
    intro w' hr
    rcases runsN_cases hr with h' | h' | h' | h' | ⟨cs', h'⟩ | h'
    · obtain ⟨-, hAq, -⟩ := R.stagePre w' c (Or.inl h'); omega
    · obtain ⟨-, hAq, -⟩ := R.stagePre w' c (Or.inr h'); omega
    · have hAq := R.execsA c hc (R.stagePost w' c (Or.inl h')); omega
    · have hAq := R.execsA c hc (R.stagePost w' c (Or.inr (Or.inl h')))
      omega
    · have hAq := R.execsA c hc
        (R.stagePost w' c (Or.inr (Or.inr (Or.inl ⟨cs', h'⟩))))
      omega
    · have hAq := R.execsA c hc
        (R.stagePost w' c (Or.inr (Or.inr (Or.inr h'))))
      omega
  have hcex : s.execs c + 1 = kOf s := by
    rcases R.execsRange c hc with h' | h'
    · exact h'
    · have hAq := R.execsA c hc h'
      omega
  exact ⟨hcnq, hcnr, hcex⟩

/-- When some worker has reached the loop-boundary logic, no node that
reaches the terminal node is still waiting for arrivals: quiescence
propagates backwards along every path into the terminal node. -/
theorem no_pend_at_check {G : Graph} {L P : Nat} {s : St P} (hwf : WF G)
    (R : RunInv G L s) {w : Fin P}
    (h1 : s.workers w = .atCheck G.termNode) :
    ∀ n, Reaches G n G.termNode → n ∈ G.nodes → ¬ Pend s n := by
  intro n hreach
  refine Relation.ReflTransGen.head_induction_on hreach ?_ ?_
  · intro _ hp
    exact hp.2.1 w (by rw [h1]; simp [runsN])
  · intro a cc hr _ ih ha hp
    have hcc : cc ∈ G.nodes := hwf.childMem a ha cc hr
    have harrF : arrB s (kOf s) a cc = false := by
      simp only [arrB, Bool.and_eq_false_iff]
      left
      simp only [beq_eq_false_iff_ne, Ne]
      have hx := hp.2.2
      omega
    have hpa : a ∈ G.parents cc := (hwf.dual a ha cc hcc).mp hr
    have hAlt : Acnt G s (kOf s) cc < G.required cc := by
      rw [hwf.reqEq cc hcc]
      exact Acnt_lt_of_not_arr hpa harrF
    exact ih hcc (pend_of_Acnt_lt R hcc hAlt)

/-- Quiescence at the loop boundary: when the worker that executed the
terminal node reaches `runner_check_loops`, the queue is empty, every
other worker is idle, every node has run exactly once in every loop so
far, all satisfied counters are zero, and every node's label occurs
exactly twice in the trace. -/
theorem quiescence {G : Graph} {L P : Nat} {s : St P} (hwf : WF G)
    (R : RunInv G L s) {w : Fin P}
    (h1 : s.workers w = .atCheck G.termNode) :
    s.queue = [] ∧ (∀ w', w' ≠ w → s.workers w' = .idle) ∧
    (∀ n ∈ G.nodes, s.execs n = kOf s) ∧
    (∀ n ∈ G.nodes, s.satisfied n = 0) ∧
    (∀ n ∈ G.nodes, s.trace.count n = 2) := by
  have hZrun : runsN (s.workers w) G.termNode := by
    rw [h1]; simp [runsN]
  have hnopend := no_pend_at_check hwf R h1
  have hterm_uniq : ∀ w', runsN (s.workers w') G.termNode → w' = w :=
    fun w' hr => R.uniq w' w G.termNode hr hZrun
  have hchild_blocked : ∀ a, a ∈ G.nodes → a ≠ G.termNode →
      (∃ cq, cq ∈ G.children a ∧ arrB s (kOf s) a cq = false) → False := by
    intro a ha _ ⟨cq, hcq, harrF⟩
    have hcc : cq ∈ G.nodes := hwf.childMem a ha cq hcq
    have hpa : a ∈ G.parents cq := (hwf.dual a ha cq hcc).mp hcq
    have hAlt : Acnt G s (kOf s) cq < G.required cq := by
      rw [hwf.reqEq cq hcc]
      exact Acnt_lt_of_not_arr hpa harrF
    exact hnopend cq (hwf.reachTerm cq hcc) hcc (pend_of_Acnt_lt R hcc hAlt)
  have hpreexec : ∀ a, a ∈ G.nodes → a ≠ G.termNode →
      s.execs a + 1 = kOf s → False := by
    intro a ha haz hex
    rcases Relation.ReflTransGen.cases_head (hwf.reachTerm a ha) with
      heq | ⟨cq, hcq, -⟩
    · exact haz heq
    · refine hchild_blocked a ha haz ⟨cq, hcq, ?_⟩
      simp only [arrB, Bool.and_eq_false_iff]
      left
      simp only [beq_eq_false_iff_ne, Ne]
      omega
  have hqempty : s.queue = [] := by
    rw [List.eq_nil_iff_forall_not_mem]
    intro n hmem
    have hn : n ∈ G.nodes := R.qMem n hmem
    have hnz : n ≠ G.termNode := by
      intro he
      exact R.qNoRun n hmem w (he ▸ hZrun)
    exact hpreexec n hn hnz (R.qProps n hmem).1
  have hwidle : ∀ w', w' ≠ w → s.workers w' = .idle := by
    intro w' hww
    cases hws : s.workers w' with
    | idle => rfl
    | gone => exact absurd hws (R.noGone w')
    | popped n =>
      have hn : n ∈ G.nodes := R.runMem w' n (by rw [hws]; simp [runsN])
      have hnz : n ≠ G.termNode := by
        intro he
        exact hww (hterm_uniq w' (by rw [hws, he]; simp [runsN]))
      exact absurd (R.stagePre w' n (Or.inl hws)).1
        (fun hx => hpreexec n hn hnz hx)
    | appended1 n =>
      have hn : n ∈ G.nodes := R.runMem w' n (by rw [hws]; simp [runsN])
      have hnz : n ≠ G.termNode := by
        intro he
        exact hww (hterm_uniq w' (by rw [hws, he]; simp [runsN]))
      exact absurd (R.stagePre w' n (Or.inr hws)).1
        (fun hx => hpreexec n hn hnz hx)
    | taskDone n =>
      have hn : n ∈ G.nodes := R.runMem w' n (by rw [hws]; simp [runsN])
      have hnz : n ≠ G.termNode := by
        intro he
        exact hww (hterm_uniq w' (by rw [hws, he]; simp [runsN]))
      rcases Relation.ReflTransGen.cases_head (hwf.reachTerm n hn) with
        heq | ⟨cq, hcq, -⟩
      · exact absurd heq hnz
      · refine absurd (hchild_blocked n hn hnz ⟨cq, hcq, ?_⟩) id
        simp only [arrB, Bool.and_eq_false_iff]
        right
        simp only [decide_eq_false_iff_not, not_forall]
        refine ⟨w', ?_⟩
        rw [hws]
        simp [blockB]
    | appended2 n =>
      have hn : n ∈ G.nodes := R.runMem w' n (by rw [hws]; simp [runsN])
      have hnz : n ≠ G.termNode := by
        intro he
        exact hww (hterm_uniq w' (by rw [hws, he]; simp [runsN]))
      rcases Relation.ReflTransGen.cases_head (hwf.reachTerm n hn) with
        heq | ⟨cq, hcq, -⟩
      · exact absurd heq hnz
      · refine absurd (hchild_blocked n hn hnz ⟨cq, hcq, ?_⟩) id
        simp only [arrB, Bool.and_eq_false_iff]
        right
        simp only [decide_eq_false_iff_not, not_forall]
        refine ⟨w', ?_⟩
        rw [hws]
        simp [blockB]
    | processing n cs =>
      have hn : n ∈ G.nodes := R.runMem w' n (by rw [hws]; simp [runsN])
      obtain ⟨hcs, hnz, pre, hchild⟩ := R.procWf w' n cs hws
      obtain ⟨cq, cs', rfl⟩ := List.exists_cons_of_ne_nil hcs
      have hcq : cq ∈ G.children n := by
        rw [hchild]
        exact List.mem_append.mpr (Or.inr (List.mem_cons_self cq cs'))
      refine absurd (hchild_blocked n hn hnz ⟨cq, hcq, ?_⟩) id
      simp only [arrB, Bool.and_eq_false_iff]
      right
      simp only [decide_eq_false_iff_not, not_forall]
      refine ⟨w', ?_⟩
      rw [hws]
      simp [blockB]
    | atCheck n =>
      have hnz : n = G.termNode := R.checkZ w' n hws
      exact absurd (hterm_uniq w' (by rw [hws, hnz]; simp [runsN])) hww
  have hexecs : ∀ n ∈ G.nodes, s.execs n = kOf s := by
    intro n hn
    by_cases hnz : n = G.termNode
    · subst hnz
      exact R.stagePost w G.termNode (Or.inr (Or.inr (Or.inr h1)))
    · rcases R.execsRange n hn with h' | h'
      · exact absurd h' (fun hx => hpreexec n hn hnz hx)
      · exact h'
  have hnorun : ∀ n, n ≠ G.termNode → ∀ w', ¬ runsN (s.workers w') n := by
    intro n hnz w' hr
    by_cases hww : w' = w
    · subst hww
      rw [h1] at hr
      have : G.termNode = n := by simpa [runsN] using hr
      exact hnz this.symm
    · rw [hwidle w' hww] at hr
      exact hr
  refine ⟨hqempty, hwidle, hexecs, ?_, ?_⟩
  · intro n hn
    by_cases hnz : n = G.termNode
    · subst hnz
      exact R.stageLate w G.termNode (Or.inr h1)
    · exact R.finSat n hn (hexecs n hn) (hnorun n hnz)
  · intro n hn
    by_cases hnz : n = G.termNode
    · subst hnz
      exact R.cnt2w w G.termNode (Or.inr (Or.inr h1))
    · exact R.cnt2f n hn (hexecs n hn) (hnorun n hnz)

/-- One-step invariant preservation, shutdown branch of
`runner_check_loops` (graph.c 624-631). -/
theorem inv_checkStop {G : Graph} {L P : Nat} {s s' : St P} (hwf : WF G)
    (I : Inv G L s) (w : Fin P) (x : Nat)
    (h1 : s.workers w = .atCheck x) (hg : s.gloop = s.gloops)
    (e1 : s'.queue = s.queue) (e2 : s'.qlen = -1) (e3 : s'.active = false)
    (e4 : s'.satisfied = s.satisfied) (e5 : s'.gloop = s.gloop)
    (e6 : s'.gloops = s.gloops) (e7 : s'.trace = s.trace)
    (e8 : s'.tracesDone = s.tracesDone ++ [s.trace])
    (e9 : s'.execs = s.execs)
    (e10 : s'.workers = Function.update s.workers w .idle) :
    Inv G L s' := by
  cases hact : s.active with
  | false =>
    have D := I.2 hact
    rcases D.wIdle w with h | h <;> rw [h1] at h <;> cases h
  | true =>
    have R := I.1 hact
    have hxz : x = G.termNode := R.checkZ w x h1
    subst hxz
    obtain ⟨hqe, hwid, hexe, hsat, hcnt⟩ := quiescence hwf R h1
    have hgk : s.gloop = kOf s := by
      rw [R.gloopEq]
      exact hexe G.entry hwf.entryMem
    have hkL : kOf s = L := by
      rw [← hgk, hg, R.loopsEq]
    have htf : TraceFull G s.trace := ⟨R.trMem, hcnt, R.ordOK⟩
    constructor
    · intro habs
      rw [e3] at habs
      cases habs
    · intro _
      refine ⟨e3, by rw [e6]; exact R.loopsEq, e2, by rw [e1]; exact hqe,
        ?_, ?_, ?_, ?_, ?_, ?_, ?_, ?_, ?_⟩
      · rw [e5, hgk, hkL]
      · intro w'
        rw [e10]
        by_cases hww : w' = w
        · subst hww; rw [Function.update_same]; exact Or.inl rfl
        · rw [Function.update_noteq hww]
          exact Or.inl (hwid w' hww)
      · intro n hn
        rw [e9, hexe n hn, hkL]
      · intro n hn
        rw [e4]
        exact hsat n hn
      · rw [e8]
        simp only [List.length_append, List.length_singleton]
        have hko : s.tracesDone.length + 1 = kOf s := rfl
        omega
      · intro t ht
        rw [e8] at ht
        rcases List.mem_append.mp ht with ht | ht
        · exact R.tdOK t ht
        · have : t = s.trace := by simpa using ht
          exact this ▸ htf
      · rw [e7]; exact R.trMem
      · rw [e7]
        exact trace_length_le R.trMem (fun n hn => le_of_eq (hcnt n hn))
      · rw [e7]; exact R.ordOK

/-- One-step invariant preservation, next-loop branch of
`runner_check_loops` (graph.c 633-637). -/
theorem inv_checkNext {G : Graph} {L P : Nat} {s s' : St P} (hwf : WF G)
    (I : Inv G L s) (w : Fin P) (x : Nat)
    (h1 : s.workers w = .atCheck x) (hg : s.gloop ≠ s.gloops)
    (e1 : s'.queue = s.queue ++ [G.entry]) (e2 : s'.qlen = s.qlen + 1)
    (e3 : s'.active = s.active) (e4 : s'.satisfied = s.satisfied)
    (e5 : s'.gloop = s.gloop) (e6 : s'.gloops = s.gloops)
    (e7 : s'.trace = []) (e8 : s'.tracesDone = s.tracesDone ++ [s.trace])
    (e9 : s'.execs = s.execs)
    (e10 : s'.workers = Function.update s.workers w .idle) :
    Inv G L s' := by
  cases hact : s.active with
  | false =>
    have D := I.2 hact
    rcases D.wIdle w with h | h <;> rw [h1] at h <;> cases h
  | true =>
    have R := I.1 hact
    have hxz : x = G.termNode := R.checkZ w x h1
    subst hxz
    obtain ⟨hqe, hwid, hexe, hsat, hcnt⟩ := quiescence hwf R h1
    have hgk : s.gloop = kOf s := by
      rw [R.gloopEq]
      exact hexe G.entry hwf.entryMem
    have hkL : kOf s ≠ L := by
      rw [← hgk]
      rw [R.loopsEq] at hg
      exact fun he => hg (hgk ▸ he)
    have hkL2 : kOf s < L := lt_of_le_of_ne R.kLe hkL
    have hk' : kOf s' = kOf s + 1 := by
      unfold kOf
      rw [e8]
      simp
    have htf : TraceFull G s.trace := ⟨R.trMem, hcnt, R.ordOK⟩
    have hallidle : ∀ w', s'.workers w' = .idle := by
      intro w'
      rw [e10]
      by_cases hww : w' = w
      · subst hww; rw [Function.update_same]
      · rw [Function.update_noteq hww]
        exact hwid w' hww
    have hnorun : ∀ w' n, ¬ runsN (s'.workers w') n := by
      intro w' n hr
      rw [hallidle w'] at hr
      exact hr
    have hq' : s'.queue = [G.entry] := by
      rw [e1, hqe]
      rfl
    have hA0 : ∀ n ∈ G.nodes, Acnt G s' (kOf s') n = 0 := by
      intro n hn
      unfold Acnt
      have hall : ∀ p ∈ G.parents n,
          (fun p => arrB s' (kOf s') p n) p = false := by
        intro p hpmem
        have hp : p ∈ G.nodes := hwf.parentMem n hn p hpmem
        simp only [arrB, Bool.and_eq_false_iff]
        left
        simp only [beq_eq_false_iff_ne, Ne]
        rw [e9, hexe p hp, hk']
        omega
      rw [List.filter_congr hall]
      simp
    constructor
    · intro _
      refine ⟨by rw [e3]; exact hact, ?_, ?_, ?_, ?_, ?_, ?_, ?_, ?_, ?_,
               ?_, ?_, ?_, ?_, ?_, ?_, ?_, ?_, ?_, ?_, ?_, ?_, ?_, ?_, ?_, ?_,
               ?_, ?_, ?_, ?_, ?_⟩
      · rw [e6]; exact R.loopsEq
      · rw [hk']; omega
      · rw [e2, hq']
        have := R.qlenEq
        rw [hqe] at this
        rw [this]
        simp
      · rw [e5, e9]; exact R.gloopEq
      · rw [hq']; exact List.nodup_singleton _
      · rw [hq']
        intro n hn
        have : n = G.entry := by simpa using hn
        exact this ▸ hwf.entryMem
      · rw [e7]; intro y hy; cases hy
      · intro w'
        rw [hallidle w']
        simp
      · intro w' n h
        exact absurd h (hnorun w' n)
      · intro w' n h
        rw [hallidle w'] at h
        cases h
      · intro w' n cs h
        rw [hallidle w'] at h
        cases h
      · intro w1 w2 n hr1 hr2
        exact absurd hr1 (hnorun w1 n)
      · intro n _ w' hr
        exact hnorun w' n hr
      · intro n hn
        rw [e9, hexe n hn, hk']
        left
        rfl
      · intro w' n h
        rcases h with h | h <;> rw [hallidle w'] at h <;> cases h
      · intro w' n h
        rcases h with h | h | ⟨cs, h⟩ | h <;> rw [hallidle w'] at h <;> cases h
      · intro w' n h
        rcases h with h | h <;> rw [hallidle w'] at h <;> cases h
      · intro w' n h
        rcases h with ⟨cs, h⟩ | h <;> rw [hallidle w'] at h <;> cases h
      · intro n hn
        rw [hq'] at hn
        have hne : n = G.entry := by simpa using hn
        subst hne
        refine ⟨by rw [e9, hexe G.entry hwf.entryMem, hk'], ?_, ?_⟩
        · rw [e4, hsat G.entry hwf.entryMem,
            hwf.reqEq G.entry hwf.entryMem, hwf.entryNoParents]
          rfl
        · rw [hA0 G.entry hwf.entryMem, hwf.reqEq G.entry hwf.entryMem,
            hwf.entryNoParents]
          rfl
      · intro n hn hp
        have hne : n ≠ G.entry := by
          intro he
          refine hp.1 ?_
          rw [hq', he]
          simp
        refine ⟨by rw [e4, hsat n hn, hA0 n hn], ?_⟩
        rw [hA0 n hn, hwf.reqEq n hn]
        have := hwf.nonEntryParents n hn hne
        cases hpp : G.parents n with
        | nil => exact absurd hpp this
        | cons a l => simp
      · intro n hn hex _
        rw [e4]
        exact hsat n hn
      · intro n hn hex
        rw [e9, hexe n hn, hk'] at hex
        omega
      · intro n _
        rw [e7]
        rfl
      · intro n _ _
        rw [e7]
        rfl
      · intro w' n h
        rw [hallidle w'] at h
        cases h
      · intro w' n h
        rcases h with h | h <;> rw [hallidle w'] at h <;> cases h
      · intro w' n h
        rcases h with h | ⟨cs, h⟩ | h <;> rw [hallidle w'] at h <;> cases h
      · intro n hn hex _
        rw [e9, hexe n hn, hk'] at hex
        omega
      · rw [e7]
        intro cq _ p _ hmem
        cases hmem
      · intro t ht
        rw [e8] at ht
        rcases List.mem_append.mp ht with ht | ht
        · exact R.tdOK t ht
        · have : t = s.trace := by simpa using ht
          exact this ▸ htf
    · intro habs
      rw [e3, hact] at habs
      cases habs

/-- One-step invariant preservation, case second trace append
(graph.c 604). -/
theorem inv_append2 {G : Graph} {L P : Nat} {s s' : St P}
    (I : Inv G L s) (w : Fin P) (x : Nat)
    (h1 : s.workers w = .taskDone x)
    (e1 : s'.queue = s.queue) (e2 : s'.qlen = s.qlen)
    (e3 : s'.active = s.active) (e4 : s'.satisfied = s.satisfied)
    (e5 : s'.gloop = s.gloop) (e6 : s'.gloops = s.gloops)
    (e7 : s'.trace = s.trace ++ [x]) (e8 : s'.tracesDone = s.tracesDone)
    (e9 : s'.execs = s.execs)
    (e10 : s'.workers = Function.update s.workers w (.appended2 x)) :
    Inv G L s' := by
  cases hact : s.active with
  | false =>
    have D := I.2 hact
    rcases D.wIdle w with h | h <;> rw [h1] at h <;> cases h
  | true =>
    have R := I.1 hact
    have hxnodes : x ∈ G.nodes := R.runMem w x (by rw [h1]; simp [runsN])
    have hexk : s.execs x = kOf s :=
      R.stagePost w x (Or.inl h1)
    have hsatx : s.satisfied x = G.required x := R.stageMid w x (Or.inl h1)
    have hcnt1 : s.trace.count x = 1 := R.cnt1 w x (Or.inr h1)
    have hxmem : x ∈ s.trace := by
      by_contra hx
      rw [List.count_eq_zero.mpr hx] at hcnt1
      omega
    have hk : kOf s' = kOf s := by unfold kOf; rw [e8]
    have hA : ∀ c, Acnt G s' (kOf s') c = Acnt G s (kOf s) c := by
      intro c
      rw [hk]
      exact Acnt_congr (fun p _ => arrB_update_congr e10 e9 (by rw [h1]; rfl))
    have hnorun : ∀ n, (∀ w', ¬ runsN (s'.workers w') n) →
        ∀ w', ¬ runsN (s.workers w') n := by
      intro n h w' hr
      by_cases hww : w' = w
      · subst hww
        rw [h1] at hr
        have hxn : x = n := by simpa [runsN] using hr
        exact h w' (by rw [e10, Function.update_same]; simpa [runsN] using hxn)
      · exact h w' (by rw [e10, Function.update_noteq hww]; exact hr)
    have hPend : ∀ n, Pend s' n → Pend s n := by
      intro n hp
      obtain ⟨hnq, hnr, hex'⟩ := hp
      rw [e1] at hnq
      rw [e9, hk] at hex'
      exact ⟨hnq, hnorun n hnr, hex'⟩
    have hnx : ∀ w', w' ≠ w → ∀ n, runsN (s.workers w') n → n ≠ x := by
      intro w' hww n hr hxeq
      subst hxeq
      exact hww (R.uniq w' w n hr (by rw [h1]; simp [runsN]))
    have hcnt : ∀ n, s'.trace.count n =
        s.trace.count n + (if n = x then 1 else 0) := by
      intro n
      rw [e7]
      exact count_snoc s.trace x n
    constructor
    · intro _
      refine ⟨by rw [e3]; exact hact, ?_, ?_, ?_, ?_, ?_, ?_, ?_, ?_, ?_,
               ?_, ?_, ?_, ?_, ?_, ?_, ?_, ?_, ?_, ?_, ?_, ?_, ?_, ?_, ?_, ?_,
               ?_, ?_, ?_, ?_, ?_⟩
      · rw [e6]; exact R.loopsEq
      · rw [hk]; exact R.kLe
      · rw [e2, e1]; exact R.qlenEq
      · rw [e5, e9]; exact R.gloopEq
      · rw [e1]; exact R.qNodup
      · rw [e1]; exact R.qMem
      · rw [e7]
        intro y hy
        rcases List.mem_append.mp hy with hy | hy
        · exact R.trMem y hy
        · have : y = x := by simpa using hy
          exact this ▸ hxnodes
      · intro w'
        rw [e10]
        by_cases hww : w' = w
        · subst hww; rw [Function.update_same]; simp
        · rw [Function.update_noteq hww]; exact R.noGone w'
      · intro w' n h
        rw [e10] at h
        rcases runsN_update_elim h with ⟨_, hr⟩ | ⟨_, hr⟩
        · have hxn : x = n := by simpa [runsN] using hr
          exact hxn ▸ hxnodes
        · exact R.runMem w' n hr
      · intro w' n h
        rw [e10] at h
        exact R.checkZ w' n (update_elim_ne h (by simp))
      · intro w' n cs h
        rw [e10] at h
        exact R.procWf w' n cs (update_elim_ne h (by simp))
      · intro w1 w2 n hr1 hr2
        rw [e10] at hr1 hr2
        rcases runsN_update_elim hr1 with ⟨hw1, hr1'⟩ | ⟨hw1, hr1'⟩ <;>
          rcases runsN_update_elim hr2 with ⟨hw2, hr2'⟩ | ⟨hw2, hr2'⟩
        · rw [hw1, hw2]
        · have hxn : x = n := by simpa [runsN] using hr1'
          exact absurd (hxn ▸ rfl : n = x) (hnx w2 hw2 n hr2')
        · have hxn : x = n := by simpa [runsN] using hr2'
          exact absurd (hxn ▸ rfl : n = x) (hnx w1 hw1 n hr1')
        · exact R.uniq w1 w2 n hr1' hr2'
      · intro n hn w' hr
        rw [e1] at hn
        rw [e10] at hr
        rcases runsN_update_elim hr with ⟨_, hr'⟩ | ⟨hww, hr'⟩
        · have hxn : x = n := by simpa [runsN] using hr'
          exact R.qNoRun n hn w (by rw [h1, ← hxn]; simp [runsN])
        · exact R.qNoRun n hn w' hr'
      · intro n hn
        rw [e9, hk]
        exact R.execsRange n hn
      · intro w' n h
        rw [e9, e4, hA n, hk]
        rcases h with h | h <;> rw [e10] at h
        · exact R.stagePre w' n (Or.inl (update_elim_ne h (by simp)))
        · exact R.stagePre w' n (Or.inr (update_elim_ne h (by simp)))
      · intro w' n h
        rw [e9, hk]
        rcases h with h | h | ⟨cs, h⟩ | h <;> rw [e10] at h
        · exact R.stagePost w' n (Or.inl (update_elim_ne h (by simp)))
        · rcases eq_update_elim h with ⟨hww, heq⟩ | ⟨hww, heq⟩
          · have hxn := WState.appended2.inj heq
            subst hxn
            exact hexk
          · exact R.stagePost w' n (Or.inr (Or.inl heq))
        · exact R.stagePost w' n
            (Or.inr (Or.inr (Or.inl ⟨cs, update_elim_ne h (by simp)⟩)))
        · exact R.stagePost w' n
            (Or.inr (Or.inr (Or.inr (update_elim_ne h (by simp)))))
      · intro w' n h
        rw [e4]
        rcases h with h | h <;> rw [e10] at h
        · exact R.stageMid w' n (Or.inl (update_elim_ne h (by simp)))
        · rcases eq_update_elim h with ⟨hww, heq⟩ | ⟨hww, heq⟩
          · have hxn := WState.appended2.inj heq
            subst hxn
            exact hsatx
          · exact R.stageMid w' n (Or.inr heq)
      · intro w' n h
        rw [e4]
        rcases h with ⟨cs, h⟩ | h <;> rw [e10] at h
        · exact R.stageLate w' n (Or.inl ⟨cs, update_elim_ne h (by simp)⟩)
        · exact R.stageLate w' n (Or.inr (update_elim_ne h (by simp)))
      · intro n hn
        rw [e1] at hn
        rw [e9, e4, hA n, hk]
        exact R.qProps n hn
      · intro n hn hp
        rw [e4, hA n]
        exact R.pendProps n hn (hPend n hp)
      · intro n hn hex' hnr
        rw [e4]
        rw [e9, hk] at hex'
        exact R.finSat n hn hex' (hnorun n hnr)
      · intro n hn hex'
        rw [hA n]
        rw [e9, hk] at hex'
        exact R.execsA n hn hex'
      · intro n hn
        rw [e1] at hn
        rw [hcnt n]
        have hnex : n ≠ x := by
          intro he
          exact R.qNoRun n hn w (by rw [h1, he]; simp [runsN])
        simp [hnex, R.cnt0q n hn]
      · intro n hn hp
        rw [hcnt n]
        have hnex : n ≠ x := by
          intro he
          subst he
          obtain ⟨_, hnr, _⟩ := hp
          exact hnr w (by rw [e10, Function.update_same]; simp [runsN])
        simp [hnex, R.cnt0p n hn (hPend n hp)]
      · intro w' n h
        rw [e10] at h
        rw [hcnt n]
        rcases eq_update_elim h with ⟨hww, heq⟩ | ⟨hww, heq⟩
        · cases heq
        · have hnex : n ≠ x := hnx w' hww n (by rw [heq]; simp [runsN])
          simp [hnex, R.cntPop w' n heq]
      · intro w' n h
        rw [hcnt n]
        rcases h with h | h <;> rw [e10] at h
        · rcases eq_update_elim h with ⟨hww, heq⟩ | ⟨hww, heq⟩
          · cases heq
          · have hnex : n ≠ x := hnx w' hww n (by rw [heq]; simp [runsN])
            simp [hnex, R.cnt1 w' n (Or.inl heq)]
        · rcases eq_update_elim h with ⟨hww, heq⟩ | ⟨hww, heq⟩
          · cases heq
          · have hnex : n ≠ x := hnx w' hww n (by rw [heq]; simp [runsN])
            simp [hnex, R.cnt1 w' n (Or.inr heq)]
      · intro w' n h
        rw [hcnt n]
        rcases h with h | ⟨cs, h⟩ | h <;> rw [e10] at h <;>
          rcases eq_update_elim h with ⟨hww, heq⟩ | ⟨hww, heq⟩
        · have hxn := WState.appended2.inj heq
          subst hxn
          simp [hcnt1]
        · have hnex : n ≠ x := hnx w' hww n (by rw [heq]; simp [runsN])
          simp [hnex, R.cnt2w w' n (Or.inl heq)]
        · cases heq
        · have hnex : n ≠ x := hnx w' hww n (by rw [heq]; simp [runsN])
          simp [hnex, R.cnt2w w' n (Or.inr (Or.inl ⟨cs, heq⟩))]
        · cases heq
        · have hnex : n ≠ x := hnx w' hww n (by rw [heq]; simp [runsN])
          simp [hnex, R.cnt2w w' n (Or.inr (Or.inr heq))]
      · intro n hn hex' hnr
        rw [hcnt n]
        rw [e9, hk] at hex'
        have hnex : n ≠ x := by
          intro he
          subst he
          exact hnr w (by rw [e10, Function.update_same]; simp [runsN])
        simp [hnex, R.cnt2f n hn hex' (hnorun n hnr)]
      · rw [e7]
        refine ordOK_snoc R.ordOK ?_
        intro hnot _ _ _
        exact absurd hxmem hnot
      · rw [e8]; exact R.tdOK
    · intro habs
      rw [e3, hact] at habs
      cases habs

/-- The start state satisfies the invariant (first loop, entry node
queued). -/
theorem inv_init (G : Graph) (L P : Nat) (hwf : WF G) (hL : 1 ≤ L) :
    Inv G L (initSt G L P) := by
  have hA0 : ∀ n, Acnt G (initSt G L P) (kOf (initSt G L P)) n = 0 := by
    intro n
    simp [Acnt, arrB, initSt, runners_loop, task_queue_push_back, st0, kOf]
  constructor
  · intro _
    refine ⟨rfl, rfl, hL, ?_, rfl, ?_, ?_, ?_, ?_, ?_, ?_, ?_, ?_, ?_, ?_,
      ?_, ?_, ?_, ?_, ?_, ?_, ?_, ?_, ?_, ?_, ?_, ?_, ?_, ?_, ?_, ?_⟩
    · simp [initSt, runners_loop, task_queue_push_back, st0]
    · simp [initSt, runners_loop, task_queue_push_back, st0]
    · intro n hn
      have hne : n = G.entry := by
        simpa [initSt, runners_loop, task_queue_push_back, st0] using hn
      exact hne ▸ hwf.entryMem
    · intro y hy
      simp [initSt, runners_loop, task_queue_push_back, st0] at hy
    · intro w
      simp [initSt, runners_loop, task_queue_push_back, st0]
    · intro w n h
      simp [initSt, runners_loop, task_queue_push_back, st0, runsN] at h
    · intro w n h
      simp [initSt, runners_loop, task_queue_push_back, st0] at h
    · intro w n cs h
      simp [initSt, runners_loop, task_queue_push_back, st0] at h
    · intro w1 w2 n hr1 hr2
      simp [initSt, runners_loop, task_queue_push_back, st0, runsN] at hr1
    · intro n _ w hr
      simp [initSt, runners_loop, task_queue_push_back, st0, runsN] at hr
    · intro n _
      exact Or.inl rfl
    · intro w n h
      rcases h with h | h <;>
        simp [initSt, runners_loop, task_queue_push_back, st0] at h
    · intro w n h
      rcases h with h | h | ⟨cs, h⟩ | h <;>
        simp [initSt, runners_loop, task_queue_push_back, st0] at h
    · intro w n h
      rcases h with h | h <;>
        simp [initSt, runners_loop, task_queue_push_back, st0] at h
    · intro w n h
      rcases h with ⟨cs, h⟩ | h <;>
        simp [initSt, runners_loop, task_queue_push_back, st0] at h
    · intro n hn
      have hne : n = G.entry := by
        simpa [initSt, runners_loop, task_queue_push_back, st0] using hn
      subst hne
      refine ⟨rfl, ?_, ?_⟩
      · show (0 : Nat) = G.required G.entry
        rw [hwf.reqEq G.entry hwf.entryMem, hwf.entryNoParents]
        rfl
      · rw [hA0 G.entry, hwf.reqEq G.entry hwf.entryMem,
          hwf.entryNoParents]
        rfl
    · intro n hn hp
      have hne : n ≠ G.entry := by
        intro he
        refine hp.1 ?_
        simp [initSt, runners_loop, task_queue_push_back, st0, he]
      refine ⟨by rw [hA0 n]; rfl, ?_⟩
      rw [hA0 n, hwf.reqEq n hn]
      have hnp := hwf.nonEntryParents n hn hne
      cases hpp : G.parents n with
      | nil => exact absurd hpp hnp
      | cons a l => simp
    · intro n hn hex hnr
      rfl
    · intro n hn hex
      simp [initSt, runners_loop, task_queue_push_back, st0, kOf] at hex
    · intro n _
      rfl
    · intro n _ _
      rfl
    · intro w n h
      simp [initSt, runners_loop, task_queue_push_back, st0] at h
    · intro w n h
      rcases h with h | h <;>
        simp [initSt, runners_loop, task_queue_push_back, st0] at h
    · intro w n h
      rcases h with h | ⟨cs, h⟩ | h <;>
        simp [initSt, runners_loop, task_queue_push_back, st0] at h
    · intro n hn hex hnr
      simp [initSt, runners_loop, task_queue_push_back, st0, kOf] at hex
    · intro c _ p _ hmem
      simp [initSt, runners_loop, task_queue_push_back, st0] at hmem
    · intro t ht
      simp [initSt, runners_loop, task_queue_push_back, st0] at ht
  · intro habs
    simp [initSt, runners_loop, task_queue_push_back, st0] at habs

/-- The invariant is preserved by every transition of the system. -/
theorem inv_step {G : Graph} {L P : Nat} {s s' : St P} (hwf : WF G)
    (I : Inv G L s) (h : Step G s s') : Inv G L s' := by
  cases h with
  | quit w h1 h2 => exact inv_quit I w h1 h2
  | pop w x s1 h1 h2 h3 h4 =>
    cases hq : s.queue with
    | nil => simp [task_queue_pop_front, hq] at h4
    | cons y q =>
      simp [task_queue_pop_front, hq] at h4
      obtain ⟨rfl, rfl⟩ := h4
      exact inv_pop I w y q h1 h2 hq rfl rfl rfl rfl rfl rfl rfl rfl rfl rfl
  | append1 w x h1 =>
    exact inv_append1 hwf I w x h1 rfl rfl rfl rfl rfl rfl rfl rfl rfl rfl
  | taskRun w x h1 =>
    exact inv_taskRun I w x h1 rfl rfl rfl rfl rfl rfl rfl rfl rfl rfl
  | append2 w x h1 =>
    exact inv_append2 I w x h1 rfl rfl rfl rfl rfl rfl rfl rfl rfl rfl
  | resetGo w x h1 =>
    exact inv_resetGo hwf I w x h1 rfl rfl rfl rfl rfl rfl rfl rfl rfl rfl
  | arriveWait w x c cs h1 h2 =>
    have hact : s.active = true := by
      cases hact2 : s.active with
      | true => rfl
      | false =>
        have D := I.2 hact2
        rcases D.wIdle w with h | h <;> rw [h1] at h <;> cases h
    have R := I.1 hact
    have F := arrive_facts hwf R h1
    obtain ⟨pre, hchild⟩ := F.suffix
    exact inv_arriveWait hwf I w x c cs h1 h2
      (arrive_st2 hchild F.xnterm F.cncs)
      rfl rfl rfl rfl rfl rfl rfl rfl rfl rfl
  | arriveFire w x c cs h1 h2 =>
    have hact : s.active = true := by
      cases hact2 : s.active with
      | true => rfl
      | false =>
        have D := I.2 hact2
        rcases D.wIdle w with h | h <;> rw [h1] at h <;> cases h
    have R := I.1 hact
    have F := arrive_facts hwf R h1
    obtain ⟨pre, hchild⟩ := F.suffix
    exact inv_arriveFire hwf I w x c cs h1 h2
      (arrive_st2 hchild F.xnterm F.cncs)
      rfl rfl rfl rfl rfl rfl rfl rfl rfl rfl
  | check w x h1 =>
    by_cases hg : s.gloop = s.gloops
    · refine inv_checkStop hwf I w x h1 hg ?_ ?_ ?_ ?_ ?_ ?_ ?_ ?_ ?_ ?_ <;>
        simp [runner_check_loops, task_queue_push_back, hg]
    · refine inv_checkNext hwf I w x h1 hg ?_ ?_ ?_ ?_ ?_ ?_ ?_ ?_ ?_ ?_ <;>
        simp [runner_check_loops, task_queue_push_back, hg]

/-- Every reachable state satisfies the invariant. -/
theorem inv_reachable {G : Graph} {L P : Nat} {s : St P} (hwf : WF G)
    (hL : 1 ≤ L) (h : Reachable G L P s) : Inv G L s := by
  induction h with
  | refl => exact inv_init G L P hwf hL
  | tail _ hstep ih => exact inv_step hwf ih hstep

/-! A concrete instance: the pathological graph S4 of the specification
(entry connected directly to the terminal node, `A --> Z`), with node A
as 0 and node Z as 1, one worker and one loop, together with an explicit
execution of the system from start to full shutdown. -/

def G0 : Graph :=
  { nodes := [0, 1]
    children := fun n => if n = 0 then [1] else []
    parents := fun n => if n = 1 then [0] else []
    required := fun n => if n = 1 then 1 else 0
    entry := 0
    termNode := 1 }

theorem wfG0 : WF G0 := by
  refine ⟨by decide, by decide, by decide, by decide, by decide, by decide,
    by decide, by decide, by decide, by decide, by decide, by decide,
    by decide, ?_⟩
  intro n hn
  have hn01 : n = 0 ∨ n = 1 := by simpa [G0] using hn
  rcases hn01 with rfl | rfl
  · exact Relation.ReflTransGen.single (by decide)
  · exact Relation.ReflTransGen.refl

def w0 : Fin 1 := ⟨0, by decide⟩

def cs0 : St 1 := initSt G0 1 1

def cs1 : St 1 :=
  { cs0 with queue := [], qlen := cs0.qlen - 1,
             workers := Function.update cs0.workers w0 (.popped 0) }

def cs2 : St 1 :=
  { cs1 with workers := Function.update cs1.workers w0 (.appended1 0),
             trace := cs1.trace ++ [0] }

def cs3 : St 1 :=
  { cs2 with workers := Function.update cs2.workers w0 (.taskDone 0),
             gloop := if (0 : Nat) = G0.entry then cs2.gloop + 1 else cs2.gloop,
             execs := Function.update cs2.execs 0 (cs2.execs 0 + 1) }

def cs4 : St 1 :=
  { cs3 with workers := Function.update cs3.workers w0 (.appended2 0),
             trace := cs3.trace ++ [0] }

def cs5 : St 1 :=
  { cs4 with satisfied := Function.update cs4.satisfied 0 0,
             workers := Function.update cs4.workers w0
               (if (0 : Nat) = G0.termNode then .atCheck 0
                else if G0.children 0 = [] then .idle
                else .processing 0 (G0.children 0)) }

def cs6 : St 1 :=
  { (task_queue_push_back
      { cs5 with satisfied := Function.update cs5.satisfied 1 (cs5.satisfied 1 + 1) } 1)
    with workers :=
           Function.update cs5.workers w0
             (if ([] : List Nat) = [] then .idle else .processing 0 []) }

def cs7 : St 1 :=
  { cs6 with queue := [], qlen := cs6.qlen - 1,
             workers := Function.update cs6.workers w0 (.popped 1) }

def cs8 : St 1 :=
  { cs7 with workers := Function.update cs7.workers w0 (.appended1 1),
             trace := cs7.trace ++ [1] }

def cs9 : St 1 :=
  { cs8 with workers := Function.update cs8.workers w0 (.taskDone 1),
             gloop := if (1 : Nat) = G0.entry then cs8.gloop + 1 else cs8.gloop,
             execs := Function.update cs8.execs 1 (cs8.execs 1 + 1) }

def cs10 : St 1 :=
  { cs9 with workers := Function.update cs9.workers w0 (.appended2 1),
             trace := cs9.trace ++ [1] }

def cs11 : St 1 :=
  { cs10 with satisfied := Function.update cs10.satisfied 1 0,
              workers := Function.update cs10.workers w0
                (if (1 : Nat) = G0.termNode then .atCheck 1
                 else if G0.children 1 = [] then .idle
                 else .processing 1 (G0.children 1)) }

def cs12 : St 1 :=
  { runner_check_loops G0 cs11 with
    workers := Function.update cs11.workers w0 .idle }

def cs13 : St 1 :=
  { cs12 with workers := Function.update cs12.workers w0 .gone }

theorem sample_step6 : Step G0 cs5 cs6 :=
  Step.arriveFire cs5 w0 0 1 [] (by decide) (by decide)

theorem sample_reach5 : Reachable G0 1 1 cs5 := by
  have h1 : Step G0 cs0 cs1 :=
    Step.pop cs0 w0 0 { cs0 with queue := [], qlen := cs0.qlen - 1 }
      (by decide) (by decide) (by decide) rfl
  have h2 : Step G0 cs1 cs2 := Step.append1 cs1 w0 0 (by decide)
  have h3 : Step G0 cs2 cs3 := Step.taskRun cs2 w0 0 (by decide)
  have h4 : Step G0 cs3 cs4 := Step.append2 cs3 w0 0 (by decide)
  have h5 : Step G0 cs4 cs5 := Step.resetGo cs4 w0 0 (by decide)
  exact Relation.ReflTransGen.refl |>.tail h1 |>.tail h2 |>.tail h3
    |>.tail h4 |>.tail h5

theorem sample_reach11 : Reachable G0 1 1 cs11 := by
  have h7 : Step G0 cs6 cs7 :=
    Step.pop cs6 w0 1 { cs6 with queue := [], qlen := cs6.qlen - 1 }
      (by decide) (by decide) (by decide) rfl
  have h8 : Step G0 cs7 cs8 := Step.append1 cs7 w0 1 (by decide)
  have h9 : Step G0 cs8 cs9 := Step.taskRun cs8 w0 1 (by decide)
  have h10 : Step G0 cs9 cs10 := Step.append2 cs9 w0 1 (by decide)
  have h11 : Step G0 cs10 cs11 := Step.resetGo cs10 w0 1 (by decide)
  exact sample_reach5 |>.tail sample_step6 |>.tail h7 |>.tail h8 |>.tail h9
    |>.tail h10 |>.tail h11

theorem sample_reach : Reachable G0 1 1 cs13 := by
  have h12 : Step G0 cs11 cs12 := Step.check cs11 w0 1 (by decide)
  have h13 : Step G0 cs12 cs13 := Step.quit cs12 w0 (by decide) (by decide)
  exact sample_reach11 |>.tail h12 |>.tail h13

/-! Auxiliary facts used by the claim theorems. -/

theorem count_le_two {G : Graph} {L P : Nat} {s : St P} (R : RunInv G L s) :
    ∀ n ∈ G.nodes, s.trace.count n ≤ 2 := by
  intro n hn
  by_cases hq : n ∈ s.queue
  · rw [R.cnt0q n hq]; omega
  · by_cases hr : ∃ w, runsN (s.workers w) n
    · obtain ⟨w, hw⟩ := hr
      rcases runsN_cases hw with h' | h' | h' | h' | ⟨cs, h'⟩ | h'
      · rw [R.cntPop w n h']; omega
      · rw [R.cnt1 w n (Or.inl h')]; omega
      · rw [R.cnt1 w n (Or.inr h')]; omega
      · rw [R.cnt2w w n (Or.inl h')]
      · rw [R.cnt2w w n (Or.inr (Or.inl ⟨cs, h'⟩))]
      · rw [R.cnt2w w n (Or.inr (Or.inr h'))]
    · push_neg at hr
      rcases R.execsRange n hn with h' | h'
      · rw [R.cnt0p n hn ⟨hq, hr, h'⟩]; omega
      · rw [R.cnt2f n hn h' hr]

theorem firstZero_append_replicate :
    ∀ (ls : List Nat) (r : Nat), (∀ y ∈ ls, y ≠ 0) → 1 ≤ r →
      firstZero (ls ++ List.replicate r 0) = ls.length := by
  intro ls
  induction ls with
  | nil =>
    intro r _ hr
    cases r with
    | zero => omega
    | succ m => simp [firstZero, List.replicate]
  | cons a ls ih =>
    intro r hnz hr
    have ha : a ≠ 0 := hnz a (List.mem_cons_self a ls)
    have hstep : firstZero ((a :: ls) ++ List.replicate r 0) =
        firstZero (ls ++ List.replicate r 0) + 1 := by
      show firstZero (a :: (ls ++ List.replicate r 0)) = _
      simp [firstZero, ha]
    rw [hstep, ih r (fun y hy => hnz y (List.mem_cons_of_mem a hy)) hr]
    rfl

/-! The claim theorems. -/

/-- C1.  For every node of the graph and any run with at least one worker
and at least one loop: when all workers have exited (which is what
`runners_join` waits for), the node's task body has been invoked exactly
`loops_target` times. -/
theorem every_node_runs_loops_target_times
    (G : Graph) (L P : Nat) (hwf : WF G) (hL : 1 ≤ L) (hP : 1 ≤ P)
    (s : St P) (hr : Reachable G L P s)
    (hdone : ∀ w : Fin P, s.workers w = .gone) :
    ∀ n ∈ G.nodes, s.execs n = L := by
  have I := inv_reachable hwf hL hr
  cases hact : s.active with
  | true =>
    have R := I.1 hact
    exact absurd (hdone ⟨0, hP⟩) (R.noGone ⟨0, hP⟩)
  | false =>
    exact (I.2 hact).execsEq

/-- C1 witness: in the explicit one-worker one-loop run of the graph
`A --> Z`, both task bodies ran exactly once. -/
theorem every_node_runs_loops_target_times_witness :
    cs13.execs 0 = 1 ∧ cs13.execs 1 = 1 :=
  ⟨every_node_runs_loops_target_times G0 1 1 wfG0 (by decide) (by decide)
      cs13 sample_reach (by decide) 0 (by decide),
   every_node_runs_loops_target_times G0 1 1 wfG0 (by decide) (by decide)
      cs13 sample_reach (by decide) 1 (by decide)⟩

/-- C4.  For every edge `p → c` and every loop (the archived loop traces
as well as the trace of the loop in progress), the second occurrence of
`p`'s label precedes the first occurrence of `c`'s label: before the
first occurrence of `c` the trace already contains two occurrences of
`p`. -/
theorem trace_second_parent_before_first_child
    (G : Graph) (L P : Nat) (hwf : WF G) (hL : 1 ≤ L)
    (s : St P) (hr : Reachable G L P s) (t : List Nat)
    (ht : t ∈ s.tracesDone ∨ t = s.trace) :
    ∀ c ∈ G.nodes, ∀ p ∈ G.parents c, c ∈ t →
      ∃ t1 t2, t = t1 ++ c :: t2 ∧ c ∉ t1 ∧ 2 ≤ t1.count p := by
  have I := inv_reachable hwf hL hr
  cases hact : s.active with
  | true =>
    have R := I.1 hact
    rcases ht with ht | rfl
    · exact (R.tdOK t ht).2.2
    · exact R.ordOK
  | false =>
    have D := I.2 hact
    rcases ht with ht | rfl
    · exact (D.tdOK t ht).2.2
    · exact D.ordOK

/-- C4 witness: in the explicit run's final trace `[0, 0, 1, 1]` (node A
twice, then node Z twice), the edge A → Z is respected. -/
theorem trace_second_parent_before_first_child_witness :
    ∃ t1 t2, cs13.trace = t1 ++ 1 :: t2 ∧ 1 ∉ t1 ∧ 2 ≤ t1.count 0 :=
  trace_second_parent_before_first_child G0 1 1 wfG0 (by decide)
    cs13 sample_reach cs13.trace (Or.inr rfl) 1 (by decide) 0 (by decide)
    (by decide)

/-- C5.  The loop-boundary logic: if `graph_loop == graph_loops` then
`runner_check_loops` clears `runners_active` and sets the queue-length
shutdown sentinel to -1, so that when all workers have exited (`join`
returns), `graph_loop` equals `graph_loops`; otherwise it resets the
trace and pushes the entry node. -/
theorem loop_boundary_logic
    (G : Graph) (L P : Nat) (hwf : WF G) (hL : 1 ≤ L) (hP : 1 ≤ P) :
    (∀ s : St P, s.gloop = s.gloops →
      (runner_check_loops G s).active = false ∧
      (runner_check_loops G s).qlen = -1) ∧
    (∀ s : St P, s.gloop ≠ s.gloops →
      (runner_check_loops G s).trace = [] ∧
      (runner_check_loops G s).queue = s.queue ++ [G.entry]) ∧
    (∀ s : St P, Reachable G L P s → (∀ w : Fin P, s.workers w = .gone) →
      s.gloop = s.gloops) := by
  refine ⟨?_, ?_, ?_⟩
  · intro s hg
    simp [runner_check_loops, hg]
  · intro s hg
    simp [runner_check_loops, task_queue_push_back, hg]
  · intro s hr hdone
    have I := inv_reachable hwf hL hr
    cases hact : s.active with
    | true =>
      have R := I.1 hact
      exact absurd (hdone ⟨0, hP⟩) (R.noGone ⟨0, hP⟩)
    | false =>
      have D := I.2 hact
      rw [D.gloopEq, D.loopsEq]

/-- C5 witness: in the explicit run, the boundary call at `cs11` has
`graph_loop = graph_loops = 1` and stops the pool; after all workers have
exited, `graph_loop = graph_loops`. -/
theorem loop_boundary_logic_witness :
    (runner_check_loops G0 cs11).active = false ∧
    cs13.gloop = cs13.gloops := by
  have h := loop_boundary_logic G0 1 1 wfG0 (by decide) (by decide)
  exact ⟨(h.1 cs11 (by decide)).1, h.2.2 cs13 sample_reach (by decide)⟩

/-- C6.  Whenever a node is pushed onto the ready queue (its multiplicity
in the queue grows across a step), its satisfied counter equals its
required counter at that moment; consequently every node in the queue
was enqueued with `satisfied == required`. -/
theorem push_only_when_satisfied_eq_required
    (G : Graph) (L P : Nat) (hwf : WF G) (hL : 1 ≤ L)
    (s s' : St P) (hr : Reachable G L P s) (hst : Step G s s') :
    (∀ n, s.queue.count n < s'.queue.count n →
      s'.satisfied n = G.required n) ∧
    (∀ n ∈ s.queue, s.satisfied n = G.required n) := by
  have I := inv_reachable hwf hL hr
  constructor
  · intro n hcount
    cases hst with
    | quit w h1 h2 => simp at hcount
    | pop w x s1 h1 h2 h3 h4 =>
      cases hq : s.queue with
      | nil => simp [task_queue_pop_front, hq] at h4
      | cons y q =>
        simp [task_queue_pop_front, hq] at h4
        obtain ⟨rfl, rfl⟩ := h4
        simp [hq, List.count_cons] at hcount
    | append1 w x h1 => simp at hcount
    | taskRun w x h1 => simp at hcount
    | append2 w x h1 => simp at hcount
    | resetGo w x h1 => simp at hcount
    | arriveWait w x c cs h1 h2 => simp at hcount
    | arriveFire w x c cs h1 h2 =>
      have hact : s.active = true := by
        cases hact2 : s.active with
        | true => rfl
        | false =>
          have D := I.2 hact2
          rcases D.wIdle w with h | h <;> rw [h1] at h <;> cases h
      have R := I.1 hact
      have F := arrive_facts hwf R h1
      have hnc : n = c := by
        by_contra hne
        simp [task_queue_push_back, count_snoc, hne] at hcount
      subst hnc
      show Function.update s.satisfied n (s.satisfied n + 1) n = G.required n
      rw [Function.update_same]
      exact h2.symm
    | check w x h1 =>
      have hact : s.active = true := by
        cases hact2 : s.active with
        | true => rfl
        | false =>
          have D := I.2 hact2
          rcases D.wIdle w with h | h <;> rw [h1] at h <;> cases h
      have R := I.1 hact
      have hxz : x = G.termNode := R.checkZ w x h1
      subst hxz
      obtain ⟨hqe, -, -, hsat, -⟩ := quiescence hwf R h1
      by_cases hg : s.gloop = s.gloops
      · simp [runner_check_loops, hg] at hcount
      · have hne : n = G.entry := by
          by_contra hne
          simp [runner_check_loops, task_queue_push_back, hg,
            count_snoc, hne] at hcount
        subst hne
        have hres : s.satisfied G.entry = G.required G.entry := by
          rw [hsat G.entry hwf.entryMem, hwf.reqEq G.entry hwf.entryMem,
            hwf.entryNoParents]
          rfl
        simpa [runner_check_loops, task_queue_push_back, hg] using hres
  · intro n hn
    cases hact : s.active with
    | true => exact ((I.1 hact).qProps n hn).2.1
    | false =>
      have D := I.2 hact
      rw [D.qEmpty] at hn
      cases hn

/-- C6 witness: the arrive step that enqueues node Z in the explicit run
increases Z's queue multiplicity and leaves `satisfied Z = required Z`. -/
theorem push_only_when_satisfied_eq_required_witness :
    cs6.satisfied 1 = G0.required 1 ∧ cs5.queue.count 1 < cs6.queue.count 1 :=
  ⟨(push_only_when_satisfied_eq_required G0 1 1 wfG0 (by decide)
      cs5 cs6 sample_reach5 sample_step6).1 1 (by decide), by decide⟩

/-- C8.  At every reachable moment of every execution, for every node,
`satisfied` lies between 0 and `required` (the lower bound is inherent in
the natural-number representation; the C counter is only ever assigned 0
or incremented from a value below `required`). -/
theorem satisfied_between_zero_and_required
    (G : Graph) (L P : Nat) (hwf : WF G) (hL : 1 ≤ L)
    (s : St P) (hr : Reachable G L P s) :
    ∀ n ∈ G.nodes, s.satisfied n ≤ G.required n := by
  have I := inv_reachable hwf hL hr
  intro n hn
  cases hact : s.active with
  | false =>
    rw [(I.2 hact).satEq n hn]
    omega
  | true =>
    have R := I.1 hact
    by_cases hq : n ∈ s.queue
    · rw [(R.qProps n hq).2.1]
    · by_cases hrun : ∃ w, runsN (s.workers w) n
      · obtain ⟨w, hw⟩ := hrun
        rcases runsN_cases hw with h' | h' | h' | h' | ⟨cs, h'⟩ | h'
        · rw [(R.stagePre w n (Or.inl h')).2.2]
        · rw [(R.stagePre w n (Or.inr h')).2.2]
        · rw [R.stageMid w n (Or.inl h')]
        · rw [R.stageMid w n (Or.inr h')]
        · rw [R.stageLate w n (Or.inl ⟨cs, h'⟩)]; omega
        · rw [R.stageLate w n (Or.inr h')]; omega
      · push_neg at hrun
        rcases R.execsRange n hn with h' | h'
        · obtain ⟨hs, hlt⟩ := R.pendProps n hn ⟨hq, hrun, h'⟩
          omega
        · rw [R.finSat n hn h' hrun]
          omega

/-- C8 witness: bounds checked at two nodes of the explicit run's final
state. -/
theorem satisfied_between_zero_and_required_witness :
    cs13.satisfied 0 ≤ G0.required 0 ∧ cs13.satisfied 1 ≤ G0.required 1 :=
  ⟨satisfied_between_zero_and_required G0 1 1 wfG0 (by decide)
      cs13 sample_reach 0 (by decide),
   satisfied_between_zero_and_required G0 1 1 wfG0 (by decide)
      cs13 sample_reach 1 (by decide)⟩

/-- C9.  The execution trace never overflows its buffer: at every
reachable state the trace holds at most `2 * graph_size` labels, a worker
about to append holds at most `2 * graph_size - 1`, and on such a buffer
the scan of `exec_trace_append` writes indices `ls.length` and
`ls.length + 1`, both strictly inside the calloc'ed buffer of
`2 * graph_size + 1` slots. -/
theorem exec_trace_never_overflows
    (G : Graph) (L P : Nat) (hwf : WF G) (hL : 1 ≤ L)
    (s : St P) (hr : Reachable G L P s) :
    s.trace.length ≤ 2 * G.nodes.length ∧
    (∀ (w : Fin P) x, (s.workers w = .popped x ∨ s.workers w = .taskDone x) →
      s.trace.length + 1 ≤ 2 * G.nodes.length) ∧
    (∀ ls : List Nat, (∀ y ∈ ls, y ≠ 0) →
      ls.length + 1 ≤ 2 * G.nodes.length →
      firstZero (ls ++ List.replicate (2 * G.nodes.length + 1 - ls.length) 0)
          = ls.length ∧
      ls.length + 1 < (exec_trace_init G.nodes.length).length) := by
  have I := inv_reachable hwf hL hr
  have hfz : ∀ ls : List Nat, (∀ y ∈ ls, y ≠ 0) →
      ls.length + 1 ≤ 2 * G.nodes.length →
      firstZero (ls ++ List.replicate (2 * G.nodes.length + 1 - ls.length) 0)
          = ls.length ∧
      ls.length + 1 < (exec_trace_init G.nodes.length).length := by
    intro ls hnz hlen
    constructor
    · exact firstZero_append_replicate ls _ hnz (by omega)
    · simp only [exec_trace_init, List.length_replicate]
      omega
  cases hact : s.active with
  | false =>
    have D := I.2 hact
    refine ⟨D.trLen, ?_, hfz⟩
    intro w x hw
    rcases D.wIdle w with h | h <;>
      rcases hw with hw | hw <;> rw [hw] at h <;> cases h
  | true =>
    have R := I.1 hact
    refine ⟨trace_length_le R.trMem (count_le_two R), ?_, hfz⟩
    intro w x hw
    have hx : x ∈ G.nodes :=
      R.runMem w x (by rcases hw with hw | hw <;> rw [hw] <;> simp [runsN])
    have hcnt1 : s.trace.count x ≤ 1 := by
      rcases hw with hw | hw
      · have := R.cntPop w x hw
        omega
      · have := R.cnt1 w x (Or.inr hw)
        omega
    have hmem : ∀ y ∈ s.trace ++ [x], y ∈ G.nodes := by
      intro y hy
      rcases List.mem_append.mp hy with hy | hy
      · exact R.trMem y hy
      · have : y = x := by simpa using hy
        exact this ▸ hx
    have hcnt : ∀ n ∈ G.nodes, (s.trace ++ [x]).count n ≤ 2 := by
      intro n hn
      rw [count_snoc]
      by_cases hnx : n = x
      · rw [hnx]
        have hone : (if x = x then (1 : Nat) else 0) = 1 := by simp
        rw [hone]
        omega
      · have hzero : (if n = x then (1 : Nat) else 0) = 0 := by simp [hnx]
        rw [hzero]
        have := count_le_two R n hn
        omega
    have := trace_length_le hmem hcnt
    simp only [List.length_append, List.length_singleton] at this
    omega

/-- C9 witness: checked with the explicit run just before node A's second
append, and with the concrete two-entry buffer state on the two-node
graph. -/
theorem exec_trace_never_overflows_witness :
    cs3.trace.length + 1 ≤ 2 * G0.nodes.length ∧
    firstZero ([5, 7] ++
        List.replicate (2 * G0.nodes.length + 1 - 2) 0) = 2 := by
  have h3 : Reachable G0 1 1 cs3 := by
    have h1 : Step G0 cs0 cs1 :=
      Step.pop cs0 w0 0 { cs0 with queue := [], qlen := cs0.qlen - 1 }
        (by decide) (by decide) (by decide) rfl
    have h2 : Step G0 cs1 cs2 := Step.append1 cs1 w0 0 (by decide)
    have h3 : Step G0 cs2 cs3 := Step.taskRun cs2 w0 0 (by decide)
    exact Relation.ReflTransGen.refl |>.tail h1 |>.tail h2 |>.tail h3
  have h := exec_trace_never_overflows G0 1 1 wfG0 (by decide) cs3 h3
  exact ⟨h.2.1 w0 0 (Or.inr (by decide)),
    (h.2.2 [5, 7] (by decide) (by decide)).1⟩

/-- C10.  The head dereference in `task_queue_pop_front` never hits an
empty queue: while the pool is active the separate length counter always
equals the length of the list, so under the worker protocol's guard
(`tasks_queue_length != 0` and `runners_active`) the list head is
non-null and the pop succeeds. -/
theorem pop_front_never_hits_empty_queue
    (G : Graph) (L P : Nat) (hwf : WF G) (hL : 1 ≤ L)
    (s : St P) (hr : Reachable G L P s) :
    (s.active = true → s.qlen = (s.queue.length : Int)) ∧
    (s.active = true → s.qlen ≠ 0 →
      (task_queue_pop_front s).isSome = true) := by
  have I := inv_reachable hwf hL hr
  have hlen : s.active = true → s.qlen = (s.queue.length : Int) :=
    fun hact => (I.1 hact).qlenEq
  refine ⟨hlen, ?_⟩
  intro hact hq
  cases hqe : s.queue with
  | nil =>
    rw [hlen hact, hqe] at hq
    simp at hq
  | cons y q =>
    simp [task_queue_pop_front, hqe]

/-- C10 witness: in the initial state of the explicit run the guard holds
and the pop succeeds. -/
theorem pop_front_never_hits_empty_queue_witness :
    (task_queue_pop_front cs0).isSome = true ∧
    cs0.qlen = (cs0.queue.length : Int) := by
  have h := pop_front_never_hits_empty_queue G0 1 1 wfG0 (by decide)
    cs0 Relation.ReflTransGen.refl
  exact ⟨h.2 (by decide) (by decide), h.1 (by decide)⟩

/-! Claims C2, C3 and C7 assert behaviour the source does not have; each
gets a concrete counterexample against the claimed behaviour and a
theorem stating what the source actually does. -/

/-- A state in mid-flight: the loop counter is 5 and the trace is
non-empty.  Passing it to `runners_loop` exhibits that the function
resets neither. -/
def csR : St 1 :=
  { queue := [], qlen := 0, active := true, satisfied := fun _ => 0,
    gloop := 5, gloops := 0, trace := [7], tracesDone := [],
    execs := fun _ => 0, workers := fun _ => .idle }

/-- C2 counterexample.  `runners_loop` (graph.c 680-684) contains only
`graph_loops = loops; task_queue_push_back(graph);`: contrary to the
claim it does not set `loop_index` (`graph_loop`) to 0 and does not
reset the execution trace, as running it on a state with
`graph_loop = 5` and a non-empty trace shows. -/
theorem runners_loop_no_reset_counterexample :
    ¬ ((runners_loop G0 3 csR).gloop = 0 ∧
       (runners_loop G0 3 csR).trace = []) := by
  decide

/-- C2 (amended).  `runners_loop loops` sets `graph_loops := loops` and
pushes the entry node, and nothing else: `graph_loop` and the trace are
left exactly as they were.  They are 0 and empty at the only call site
(main, graph.c 831) because the zero-initialised global `graph_loop`
(265) and the calloc'ed trace buffer (`exec_trace_init`, 508-512) have
not been touched yet, which is what `initSt` records. -/
theorem runners_loop_amended (P : Nat) (G : Graph) (loops : Nat)
    (s : St P) :
    (runners_loop G loops s).gloops = loops ∧
    (runners_loop G loops s).queue = s.queue ++ [G.entry] ∧
    (runners_loop G loops s).qlen = s.qlen + 1 ∧
    (runners_loop G loops s).gloop = s.gloop ∧
    (runners_loop G loops s).trace = s.trace ∧
    (st0 P).gloop = 0 ∧ (st0 P).trace = [] ∧
    initSt G loops P = runners_loop G loops (st0 P) :=
  ⟨rfl, rfl, rfl, rfl, rfl, rfl, rfl, rfl⟩

/-- The mutex discipline claim C3 makes about the shutdown path: every
shutdown-marking write and every read of `runners_active` along a
worker's terminal iteration happens under the queue mutex, and
`runner_check_loops` acquires the mutex. -/
def ShutdownLockClaim : Prop :=
  LocksRespected runnerTermActs ∧ QAct.lockQ ∈ checkLoopsStopActs

/-- C3 counterexample.  `runner_check_loops` (graph.c 621-638) performs
no mutex operation at all: the writes `runners_active = false` (628) and
`tasks_queue_length = -1` (629) happen after `runner` released the mutex
(598), and the outer `while (runners_active)` read (583) is also outside
the mutex, so the claimed discipline fails on the very action sequence
of a terminal iteration. -/
theorem shutdown_writes_not_under_mutex_counterexample :
    ¬ ShutdownLockClaim := by
  unfold ShutdownLockClaim LocksRespected
  decide

/-- C3 (amended).  In a worker's terminal iteration the shutdown writes
happen while the queue mutex is NOT held: every shutdown-marking action
of the sequence runs unlocked; the outer read of `runners_active` (583)
is unlocked while the inner one (590) is under the mutex; and
`runner_check_loops`' shutdown branch neither locks nor unlocks — it
writes the flag, writes the `-1` sentinel and broadcasts, in that
order, with no mutex operation around them. -/
theorem shutdown_writes_without_mutex :
    (∀ i : Fin runnerTermActs.length,
      shutdownWrite (runnerTermActs.get i) = true →
        heldAt runnerTermActs i.val = false) ∧
    runnerTermActs.get? 0 = some .readActive ∧
    heldAt runnerTermActs 0 = false ∧
    runnerTermActs.get? 3 = some .readActive ∧
    heldAt runnerTermActs 3 = true ∧
    runnerTermActs.get? 15 = some (.writeActive false) ∧
    runnerTermActs.get? 16 = some .writeLenSentinel ∧
    runnerTermActs.get? 17 = some .bcastQ ∧
    heldAt runnerTermActs 15 = false ∧
    heldAt runnerTermActs 16 = false ∧
    QAct.lockQ ∉ checkLoopsStopActs ∧
    QAct.unlockQ ∉ checkLoopsStopActs := by
  decide

/-- The contract claim C7 states for `task_queue_pop_front`: besides
detaching the head and decrementing the length, the pop itself releases
the queue mutex before returning. -/
def PopReleasesMutexClaim : Prop :=
  QAct.detachHead ∈ popFrontActs ∧ QAct.decLen ∈ popFrontActs ∧
  QAct.unlockQ ∈ popFrontActs

/-- C7 counterexample.  `task_queue_pop_front` (graph.c 431-443)
performs no unlock (and no lock): its comment (433-434) requires the
caller to hold `tasks_queue_mtx`, and the unlock the claim attributes to
it is done by the caller `runner` (598) after the pop returns. -/
theorem pop_front_does_not_unlock_counterexample :
    ¬ PopReleasesMutexClaim := by
  unfold PopReleasesMutexClaim
  decide

/-- C7 (amended).  The pop detaches the head and decrements the length
but does not release the mutex: `unlockQ` is not among its actions, the
mutex stays held throughout the pop (indices 4-7 of the terminal
iteration) and is still held when it returns; the caller releases it as
the very next action (index 8).  On the state level the pop returns the
head and decrements the length counter by one. -/
theorem pop_front_leaves_mutex_locked :
    (QAct.detachHead ∈ popFrontActs ∧ QAct.decLen ∈ popFrontActs ∧
     QAct.unlockQ ∉ popFrontActs ∧ QAct.lockQ ∉ popFrontActs ∧
     heldAt runnerTermActs 4 = true ∧ heldAt runnerTermActs 5 = true ∧
     heldAt runnerTermActs 6 = true ∧ heldAt runnerTermActs 7 = true ∧
     heldAt runnerTermActs 8 = true ∧
     runnerTermActs.get? 8 = some .unlockQ ∧
     heldAt runnerTermActs 9 = false) ∧
    (∀ (P : Nat) (s1 : St P) (x : Nat) (s2 : St P),
      task_queue_pop_front s1 = some (x, s2) →
      s1.queue = x :: s2.queue ∧ s2.qlen = s1.qlen - 1) := by
  refine ⟨by decide, ?_⟩
  intro P s1 x s2 h
  cases hq : s1.queue with
  | nil => rw [task_queue_pop_front, hq] at h; cases h
  | cons y q =>
    rw [task_queue_pop_front, hq] at h
    cases h
    exact ⟨rfl, rfl⟩

end GraphC
